import Mathlib

/-!
Shallow embedding of `wind_farm_controller/wfc_zmq_server.py`
(SUDOCO-EU/windfarmcontroller_zeromq_demo).

The file models the wire codec, the connection registry
(`wfc_zmq_connections`) and the request/reply serving loop
(`wfc_zmq_server.runserver`) of the ZeroMQ wind-farm-control server, and
proves the specification claims about them.

Modelling conventions:
* Python `str` payloads are `List Char`.
* Python numbers (measurement/setpoint values) are `ℚ`; the Python float
  parser `float(...)` is modelled on its plain decimal subset
  (optional sign, digits, at most one decimal point), which covers every
  payload the protocol exchanges.
* Python `dict` is an insertion-ordered association list; assignment to an
  existing key keeps its position, assignment to a fresh key appends.
* Python exceptions are the `PyErr` enumeration; fallible code returns
  `PyResult`.
-/

namespace WfcZmq

/-- Python exception classes relevant to the server. `ioError` stands for
`IOError`, which in Python 3 is an alias of `OSError`; `timeoutError` stands
for the distinct builtin `TimeoutError` (a subclass of `OSError`, so an
`OSError` instance is never an instance of `TimeoutError`). -/
inductive PyErr where
  | attributeError
  | notImplementedError
  | ioError
  | timeoutError
  | keyError
  | valueError
  | indexError
deriving DecidableEq, Repr

/-- Result of running a piece of Python code that may raise. -/
inductive PyResult (α : Type) where
  | ok (a : α)
  | raise (e : PyErr)
deriving DecidableEq, Repr

/-! ### Python dict model (insertion-ordered association list) -/

/-- Membership test `k in d.keys()`. -/
def dictHasKey {α β : Type} [DecidableEq α] (d : List (α × β)) (k : α) : Bool :=
  d.any (fun p => p.1 = k)

/-- Lookup `d[k]`, as an `Option` (`none` models `KeyError`). -/
def dictGet {α β : Type} [DecidableEq α] (d : List (α × β)) (k : α) : Option β :=
  (d.find? (fun p => p.1 = k)).map Prod.snd

/-- Lookup with default, `d.get(k, dflt)`. -/
def dictGetD {α β : Type} [DecidableEq α] (d : List (α × β)) (k : α) (dflt : β) : β :=
  (dictGet d k).getD dflt

/-- Assignment `d[k] = v`: overwrite in place if the key exists (keeping its
position, as Python dicts do), append at the end otherwise. -/
def dictUpdate {α β : Type} [DecidableEq α] : List (α × β) → α → β → List (α × β)
  | [], k, v => [(k, v)]
  | p :: rest, k, v => if p.1 = k then (k, v) :: rest else p :: dictUpdate rest k v

theorem dictGet_update_self {α β : Type} [DecidableEq α]
    (d : List (α × β)) (k : α) (v : β) : dictGet (dictUpdate d k v) k = some v := by
  induction d with
  | nil => simp [dictUpdate, dictGet, List.find?]
  | cons q d ih =>
    by_cases hq : q.1 = k
    · simp [dictUpdate, hq, dictGet, List.find?]
    · simpa [dictUpdate, hq, dictGet, List.find?] using ih

theorem dictGet_update_ne {α β : Type} [DecidableEq α]
    (d : List (α × β)) (k k' : α) (v : β) (hne : k' ≠ k) :
    dictGet (dictUpdate d k v) k' = dictGet d k' := by
  have hkk : ¬ (k = k') := fun hc => hne hc.symm
  induction d with
  | nil => simp [dictUpdate, dictGet, List.find?, hkk]
  | cons q d ih =>
    by_cases hq : q.1 = k
    · simp [dictUpdate, hq, dictGet, List.find?, hkk]
    · by_cases hq' : q.1 = k'
      · simp only [dictUpdate, if_neg hq]
        simp [dictGet, List.find?, hq']
      · simp only [dictUpdate, if_neg hq]
        simpa [dictGet, List.find?, hq'] using ih

theorem dictGet_update_false_of_false {α : Type} [DecidableEq α]
    (d : List (α × Bool)) (k k' : α) (h : dictGet d k = some false) :
    dictGet (dictUpdate d k' false) k = some false := by
  by_cases hk : k = k'
  · subst hk
    exact dictGet_update_self d k false
  · rw [dictGet_update_ne d k' k false hk]
    exact h

theorem dictHasKey_of_dictGet {α β : Type} [DecidableEq α]
    (d : List (α × β)) (k : α) (v : β) (h : dictGet d k = some v) :
    dictHasKey d k = true := by
  induction d with
  | nil => simp [dictGet, List.find?] at h
  | cons q d ih =>
    by_cases hq : q.1 = k
    · simp [dictHasKey, hq]
    · simp only [dictGet, List.find?] at h ⊢
      rw [show (decide (q.1 = k)) = false by simp [hq]] at h
      simpa [dictHasKey, hq] using ih (by simpa [dictGet] using h)

theorem dictGet_append_left {α β : Type} [DecidableEq α]
    (d d' : List (α × β)) (k : α) (v : β) (h : dictGet d k = some v) :
    dictGet (d ++ d') k = some v := by
  unfold dictGet at h ⊢
  rw [List.find?_append]
  cases hfind : List.find? (fun p => decide (p.1 = k)) d with
  | some p => simp_all
  | none => simp [hfind] at h

theorem dictUpdate_map_fst {α β : Type} [DecidableEq α]
    (d : List (α × β)) (k : α) (v : β) (h : dictHasKey d k = true) :
    (dictUpdate d k v).map Prod.fst = d.map Prod.fst := by
  induction d with
  | nil => simp [dictHasKey] at h
  | cons q d ih =>
    by_cases hq : q.1 = k
    · simp [dictUpdate, hq]
    · simp only [dictHasKey, List.any_cons, Bool.or_eq_true, decide_eq_true_eq] at h
      rcases h with h | h
      · exact absurd h hq
      · simp only [dictUpdate, hq, if_false, List.map_cons]
        rw [ih (by simpa [dictHasKey] using h)]

/-! ### Characters, digit strings, splitting and joining -/

/-- Decimal digit test, `'0' ≤ c ≤ '9'`. -/
def isDig (c : Char) : Bool := '0' ≤ c ∧ c ≤ '9'

/-- Value of a digit string read most-significant-first
(the usual positional fold). -/
def digitsToNat (l : List Char) : Nat :=
  l.foldl (fun a c => 10 * a + (c.toNat - 48)) 0

/-- Decimal digits of `n`, most significant first, driven by explicit fuel so
that the definition is structural. -/
def natDigitsAux : Nat → Nat → List Char
  | 0, _ => []
  | fuel + 1, n =>
    if n < 10 then [Char.ofNat (48 + n)]
    else natDigitsAux fuel (n / 10) ++ [Char.ofNat (48 + n % 10)]

/-- Decimal digits of `n`, most significant first (`"0"` for zero). -/
def natDigits (n : Nat) : List Char := natDigitsAux (n + 1) n

/-- Left-pad a digit string with `'0'` up to width `k`. -/
def padZeros (k : Nat) (l : List Char) : List Char :=
  List.replicate (k - l.length) '0' ++ l

/-- Python `",".join`-style joining of chunks with a separator. -/
def joinSep (sep : List Char) : List (List Char) → List Char
  | [] => []
  | [t] => t
  | t :: ts => t ++ sep ++ joinSep sep ts

/-- Prepend a character to the first chunk of a split result. -/
def consHead (c : Char) : List (List Char) → List (List Char)
  | [] => [[c]]
  | t :: ts => (c :: t) :: ts

/-- Python `s.split(",")`: cut at every comma, keeping empty chunks. -/
def splitOnComma : List Char → List (List Char)
  | [] => [[]]
  | c :: rest =>
    if c = ',' then [] :: splitOnComma rest else consHead c (splitOnComma rest)

/-- Python `s.split(", ")`: cut at every occurrence of the two-character
separator, scanning left to right. -/
def splitOnCommaSpace : List Char → List (List Char)
  | [] => [[]]
  | [c] => [[c]]
  | c :: c2 :: rest =>
    if c = ',' ∧ c2 = ' ' then [] :: splitOnCommaSpace rest
    else consHead c (splitOnCommaSpace (c2 :: rest))

/-- Remove embedded null characters, modelling `s.replace("\x00", "")`. -/
def stripNulls (s : List Char) : List Char := s.filter (fun c => c ≠ '\x00')

/-! ### Model of Python `float()` on its plain decimal subset

`parseUnsigned` accepts `digits`, `digits "." digits`, `digits "."` and
`"." digits`; `pyFloat?` adds an optional leading sign. This is the decimal
subset of Python `float()` that the wire protocol exchanges (no exponent,
no `inf`/`nan`, no whitespace or underscores). -/

/-- Parse an unsigned decimal numeral as an exact rational. -/
def parseUnsigned (s : List Char) : Option ℚ :=
  let ip := s.takeWhile isDig
  let rest := s.dropWhile isDig
  match rest with
  | [] => if ip = [] then none else some (digitsToNat ip)
  | c :: fp =>
    if c = '.' then
      if fp.all isDig ∧ (ip ≠ [] ∨ fp ≠ []) then
        some ((digitsToNat ip : ℚ) + (digitsToNat fp : ℚ) / 10 ^ fp.length)
      else none
    else none

/-- Model of Python `float(token)` on plain decimal numerals; `none` models
`ValueError`. -/
def pyFloat? (s : List Char) : Option ℚ :=
  match s with
  | [] => none
  | c :: rest =>
    if c = '+' then parseUnsigned rest
    else if c = '-' then (parseUnsigned rest).map (fun q => -q)
    else parseUnsigned s

/-! ### Wire codec

Decode embeds the measurement-parsing part of
`wfc_zmq_server._get_measurements` (lines 202-215): strip nulls, split on
commas, `float` every token, then build the dict by position over the
measurement schema. Encode embeds the message construction of
`wfc_zmq_server._send_setpoints` (lines 221-223): the Python format spec
`016.5f` followed by `", ".join`. -/

/-- Run `[float(m) for m in tokens]`; `none` models the `ValueError` raised
by the first non-numeric token. -/
def parseAll : List (List Char) → Option (List ℚ)
  | [] => some []
  | t :: ts =>
    match pyFloat? t, parseAll ts with
    | some q, some qs => some (q :: qs)
    | _, _ => none

/-- Build the measurement dict by successive insertion, mirroring
`for i_meas, meas in enumerate(schema): meas_dict[meas] = meas_float[i_meas]`. -/
def buildMeasDict (schema : List String) (vals : List ℚ) : List (String × ℚ) :=
  (schema.zip vals).foldl (fun d p => dictUpdate d p.1 p.2) []

/-- Decode a raw request payload against the measurement schema.
`valueError` models a non-numeric token, `indexError` models
`meas_float[i_meas]` running past the end when fewer tokens than schema
entries arrived. Extra tokens beyond the schema are ignored (the source
never indexes past `len(schema) - 1`). -/
def decode (schema : List String) (raw : List Char) : PyResult (List (String × ℚ)) :=
  let tokens := splitOnComma (stripNulls raw)
  match parseAll tokens with
  | none => .raise .valueError
  | some vals =>
    if schema.length ≤ vals.length then .ok (buildMeasDict schema vals)
    else .raise .indexError

/-- Round to the nearest integer, ties to even — the rounding Python applies
when formatting a value with `"%.5f"`-style fixed precision. -/
def roundHalfEven (q : ℚ) : Int :=
  if q - ⌊q⌋ < 1 / 2 then ⌊q⌋
  else if 1 / 2 < q - ⌊q⌋ then ⌊q⌋ + 1
  else if ⌊q⌋ % 2 = 0 then ⌊q⌋ else ⌊q⌋ + 1

/-- The Python format `f"{s:016.5f}"`: five digits after the decimal point,
zero-padded on the left (after the sign, if any) to a minimum total width of
sixteen characters. -/
def formatFixed16_5 (q : ℚ) : List Char :=
  let r := roundHalfEven (q * 100000)
  let mag := r.natAbs
  let body := natDigits (mag / 100000) ++ '.' :: padZeros 5 (natDigits (mag % 100000))
  let sign := if r < 0 then ['-'] else []
  sign ++ List.replicate (16 - (sign.length + body.length)) '0' ++ body

/-- The reply payload of `_send_setpoints`:
`", ".join([f"{s:016.5f}" for s in setpoints[id].values()])`. -/
def encodeSetpoints (sps : List (String × ℚ)) : List Char :=
  joinSep [',', ' '] (sps.map (fun p => formatFixed16_5 p.2))

/-! ### Connection registry (`wfc_zmq_connections`) -/

/-- The two ordered channel-name lists of `wfc_interface.yaml`. -/
structure WfcInterface where
  measurements : List String
  setpoints : List String
deriving DecidableEq

/-- Instance state of `wfc_zmq_connections`: the interface plus the
per-instance `setpoints` and `measurements` tables. The class-level
`connected` table is process-wide shared state and is therefore passed
around separately (as `List (Int × Bool)`), not stored in the instance. -/
structure wfc_zmq_connections where
  wfc_interface : WfcInterface
  setpoints : List (Int × List (String × ℚ))
  measurements : List (Int × List (String × ℚ))
deriving DecidableEq

/-- The `__init__` of `wfc_zmq_connections`: empty per-instance tables. -/
def freshConnections (iface : WfcInterface) : wfc_zmq_connections :=
  { wfc_interface := iface, setpoints := [], measurements := [] }

/-- A schema-shaped dict of zeros, `{s: 0.0 for s in schema}`. -/
def zeroDict (schema : List String) : List (String × ℚ) :=
  schema.map (fun s => (s, (0 : ℚ)))

/-- Embeds `wfc_zmq_connections._add_unique`: if the id is not yet in the
class-level `connected` table, mark it connected and initialise this
instance's setpoint and measurement entries to zeros; otherwise do nothing
at all. -/
def add_unique (connected : List (Int × Bool)) (self : wfc_zmq_connections)
    (id : Int) : List (Int × Bool) × wfc_zmq_connections :=
  if dictHasKey connected id then (connected, self)
  else
    (dictUpdate connected id true,
      { self with
          setpoints := dictUpdate self.setpoints id (zeroDict self.wfc_interface.setpoints)
          measurements :=
            dictUpdate self.measurements id (zeroDict self.wfc_interface.measurements) })

/-- Embeds `wfc_zmq_connections._update_measurements`: replace the stored
measurement dict wholesale, then mark the id disconnected when
`measurements["iStatus"] == -1`. The third component records the `KeyError`
raised after the replacement when `iStatus` is absent from the dict. -/
def update_measurements (connected : List (Int × Bool)) (self : wfc_zmq_connections)
    (id : Int) (meas : List (String × ℚ)) :
    List (Int × Bool) × wfc_zmq_connections × Option PyErr :=
  let self' := { self with measurements := dictUpdate self.measurements id meas }
  match dictGet meas "iStatus" with
  | none => (connected, self', some .keyError)
  | some v =>
    if v = -1 then (dictUpdate connected id false, self', none)
    else (connected, self', none)

/-! ### Request/reply server (`wfc_zmq_server`) -/

/-- A pluggable control strategy: `update(id, current_time, measurements)`. -/
abbrev Strategy := Int → ℚ → List (String × ℚ) → List (String × ℚ)

/-- Observable server state threaded through the serving loop: the
class-level `connected` table, the registry instance, the (optionally
installed) `wfc_controller`, whether the REP socket is still open, whether
the critical "controller not defined" log line has been emitted, and the
replies sent so far. -/
structure ServerState where
  connected : List (Int × Bool)
  conns : wfc_zmq_connections
  wfc_controller : Option Strategy
  socketOpen : Bool
  loggedCritical : Bool
  sent : List (List Char)

/-- What one iteration of the `while connect_zmq` loop does. -/
inductive StepResult where
  | next (st : ServerState)
  | shutdown (st : ServerState)
  | raised (e : PyErr) (st : ServerState)

/-- The server state carried by a step result. -/
def stepState : StepResult → ServerState
  | .next st => st
  | .shutdown st => st
  | .raised _ st => st

/-- One inbound event per receive call: either a raw request payload or the
poller expiring after `timeout` seconds with nothing to read. -/
inductive RecvEvent where
  | timeout
  | msg (raw : List Char)

/-- Python `int(q)`: truncation toward zero. -/
def ratTrunc (q : ℚ) : Int := if q < 0 then ⌈q⌉ else ⌊q⌋

/-- The quantity `sum(self.connections.connected.values())`; summing booleans
counts the `True` entries. -/
def connectedCount (connected : List (Int × Bool)) : Nat :=
  (connected.filter (fun p => p.2)).length

/-- Embeds `self._disconnect()`: close the socket. -/
def disconnectServer (st : ServerState) : ServerState :=
  { st with socketOpen := false }

/-- Embeds the setpoint-writing loop of `_get_setpoints`:
`for s in schema: self.connections.setpoints[id][s] = setpoints.get(s, 0)`.
Each iteration re-reads `setpoints[id]` and raises `KeyError` when the id has
no setpoint entry. -/
def setSetpointsLoop (sps : List (Int × List (String × ℚ))) (id : Int)
    (res : List (String × ℚ)) :
    List String → PyResult (List (Int × List (String × ℚ)))
  | [] => .ok sps
  | s :: rest =>
    match dictGet sps id with
    | none => .raise .keyError
    | some inner =>
      setSetpointsLoop (dictUpdate sps id (dictUpdate inner s (dictGetD res s 0))) id res rest

/-- Embeds `wfc_zmq_server._get_setpoints`. Reading `measurements[id]["Time"]`
can raise `KeyError`; with no controller installed (`wfc_controller = None`),
`self.wfc_controller.update(...)` raises `AttributeError` — `None` has no
attribute `update`. -/
def get_setpoints (controller : Option Strategy) (self : wfc_zmq_connections)
    (id : Int) (meas : List (String × ℚ)) : PyResult wfc_zmq_connections :=
  match dictGet self.measurements id with
  | none => .raise .keyError
  | some m =>
    match dictGet m "Time" with
    | none => .raise .keyError
    | some current_time =>
      match controller with
      | none => .raise .attributeError
      | some f =>
        match setSetpointsLoop self.setpoints id (f id current_time meas)
            self.wfc_interface.setpoints with
        | .raise e => .raise e
        | .ok sps => .ok { self with setpoints := sps }

/-- Embeds `wfc_zmq_server._send_setpoints`: encode the stored setpoint dict
of this id and send it on the socket. -/
def send_setpoints (st : ServerState) (id : Int) : PyResult ServerState :=
  match dictGet st.conns.setpoints id with
  | none => .raise .keyError
  | some sp => .ok { st with sent := st.sent ++ [encodeSetpoints sp] }

/-- Embeds `_check_for_disconnect` plus the loop condition: keep serving
while at least one client is connected, otherwise `_disconnect` and leave
the loop. -/
def checkLoop (st : ServerState) : StepResult :=
  if connectedCount st.connected > 0 then .next st
  else .shutdown (disconnectServer st)

/-- Embeds the `try/except NotImplementedError/else` block of `runserver`:
only a `NotImplementedError` triggers the disconnect-and-log handler; any
other exception (in particular the `AttributeError` from a never-installed
controller) propagates with the socket untouched. -/
def trySetpoints (st : ServerState) (id : Int) (meas : List (String × ℚ)) :
    StepResult :=
  match get_setpoints st.wfc_controller st.conns id meas with
  | .raise e =>
    if e = PyErr.notImplementedError then
      .raised e { disconnectServer st with loggedCritical := true }
    else .raised e st
  | .ok cs =>
    match send_setpoints { st with conns := cs } id with
    | .raise e => .raised e { st with conns := cs }
    | .ok st4 => checkLoop st4

/-- The registration-and-update stage of a loop iteration:
`self.connections._add_unique(id)` followed by
`self.connections._update_measurements(id, measurements)`, then the
`try/except/else` block on the updated state. -/
def processRequest (st : ServerState) (id : Int) (meas : List (String × ℚ)) :
    StepResult :=
  let au := add_unique st.connected st.conns id
  let um := update_measurements au.1 au.2 id meas
  let st2 := { st with connected := um.1, conns := um.2.1 }
  match um.2.2 with
  | some e => .raised e st2
  | none => trySetpoints st2 id meas

/-- One iteration of `runserver`'s `while connect_zmq` loop, from the receive
call to the loop-condition update. A `timeout` event is the poller expiring:
`raise IOError("Connection timed out")` (and nothing else — the socket stays
open on that path). `id = int(measurements["ZMQ_ID"])` raises `KeyError`
when the identifier channel is missing from the schema. -/
def serverStep (st : ServerState) (ev : RecvEvent) : StepResult :=
  match ev with
  | .timeout => .raised .ioError st
  | .msg raw =>
    match decode st.conns.wfc_interface.measurements raw with
    | .raise e => .raised e st
    | .ok meas =>
      match dictGet meas "ZMQ_ID" with
      | none => .raised .keyError st
      | some qid => processRequest st (ratTrunc qid) meas

/-- Outcome of a whole serving run on a finite schedule of receive events:
`pending` when the schedule ran out with the server still in LISTENING,
`normal` when the loop exited through the all-disconnected shutdown path,
`raised e` when an exception escaped `runserver`. -/
inductive RunOutcome where
  | pending
  | normal
  | raised (e : PyErr)
deriving DecidableEq, Repr

/-- Result of a serving run: final state, number of receive (poll) calls
made, and how the loop ended. -/
structure RunResult where
  state : ServerState
  recvCount : Nat
  outcome : RunOutcome

/-- Embeds `wfc_zmq_server.runserver` over a finite schedule of inbound
events, counting the receive calls the server makes. -/
def runserver (st : ServerState) : List RecvEvent → RunResult
  | [] => ⟨st, 0, .pending⟩
  | ev :: rest =>
    match serverStep st ev with
    | .next st' =>
      let r := runserver st' rest
      ⟨r.state, r.recvCount + 1, r.outcome⟩
    | .shutdown st' => ⟨st', 1, .normal⟩
    | .raised e st' => ⟨st', 1, .raised e⟩

/-- Embeds `wfc_zmq_server.__init__` as observable state: socket bound and
open, fresh registry instance, `wfc_controller = None` unless the user
assigned one afterwards, with the process-wide `connected` table in whatever
state earlier instances left it. -/
def initialServer (iface : WfcInterface) (controller : Option Strategy)
    (connected : List (Int × Bool)) : ServerState :=
  { connected := connected
    conns := freshConnections iface
    wfc_controller := controller
    socketOpen := true
    loggedCritical := false
    sent := [] }

/-- A concrete interface for scenario runs: the identifier, status and time
measurement channels, and the two setpoint channels of the spec's
Scenario C. -/
def demoInterface : WfcInterface :=
  { measurements := ["ZMQ_ID", "iStatus", "Time"]
    setpoints := ["ZMQ_YawOffset", "ZMQ_PitOffset(1)"] }

section ConcreteEvaluation

attribute [local semireducible] Rat.add Rat.mul Rat.inv Rat.sub Rat.ofScientific

/-! ### Generic facts about the serving loop -/

theorem runserver_cons_next (st st' : ServerState) (ev : RecvEvent)
    (rest : List RecvEvent) (h : serverStep st ev = .next st') :
    runserver st (ev :: rest) =
      ⟨(runserver st' rest).state, (runserver st' rest).recvCount + 1,
        (runserver st' rest).outcome⟩ := by
  simp [runserver, h]

theorem runserver_cons_shutdown (st st' : ServerState) (ev : RecvEvent)
    (rest : List RecvEvent) (h : serverStep st ev = .shutdown st') :
    runserver st (ev :: rest) = ⟨st', 1, .normal⟩ := by
  simp [runserver, h]

theorem runserver_cons_raised (st st' : ServerState) (ev : RecvEvent)
    (e : PyErr) (rest : List RecvEvent) (h : serverStep st ev = .raised e st') :
    runserver st (ev :: rest) = ⟨st', 1, .raised e⟩ := by
  simp [runserver, h]

/-- Every state-valued property preserved by one loop step is preserved by a
whole serving run. -/
theorem runserver_preserves (P : ServerState → Prop)
    (hstep : ∀ st ev, P st → P (stepState (serverStep st ev))) :
    ∀ (evs : List RecvEvent) (st : ServerState), P st →
      P ((runserver st evs).state) := by
  intro evs
  induction evs with
  | nil => intro st h; exact h
  | cons ev rest ih =>
    intro st h
    cases hstep' : serverStep st ev with
    | next st' =>
      rw [runserver_cons_next st st' ev rest hstep']
      exact ih st' (by simpa [hstep', stepState] using hstep st ev h)
    | shutdown st' =>
      rw [runserver_cons_shutdown st st' ev rest hstep']
      simpa [hstep', stepState] using hstep st ev h
    | raised e st' =>
      rw [runserver_cons_raised st st' ev e rest hstep']
      simpa [hstep', stepState] using hstep st ev h

/-! ### Claim C1 — missing control strategy -/

/-- Claim C1 (status: code_bug). The spec says a run whose `wfc_controller`
was never set fails on the first request with the not-implemented signal
(`ConfigurationError` / `NotImplementedError`), closing the socket, logging
the condition and re-raising. The code instead leaves `wfc_controller =
None`, so `self.wfc_controller.update(...)` raises `AttributeError`, which
the `except NotImplementedError` handler does not catch: the error does
terminate the loop and propagate, but the socket is never closed, the
critical log line is never emitted, and the raised class is
`AttributeError`, not `NotImplementedError`. This theorem evaluates the
embedded code at the failing input (fresh server, controller never set, one
well-formed request `"1,1,0"`). -/
theorem claimC1_missing_controller_run :
    (runserver (initialServer demoInterface none [])
        [RecvEvent.msg ("1,1,0".toList)]).outcome
        = RunOutcome.raised PyErr.attributeError ∧
    (runserver (initialServer demoInterface none [])
        [RecvEvent.msg ("1,1,0".toList)]).state.socketOpen = true ∧
    (runserver (initialServer demoInterface none [])
        [RecvEvent.msg ("1,1,0".toList)]).state.loggedCritical = false ∧
    PyErr.attributeError ≠ PyErr.notImplementedError := by
  refine ⟨by decide, by decide, by decide, by decide⟩

/-! ### Claim C2 — receive timeout -/

/-- Counterexample for claim C2 as stated: on a timed-out receive the code
raises `IOError("Connection timed out")` — in Python 3 an alias of
`OSError` — and not the distinct builtin `TimeoutError` the claim names
(an `OSError` instance is not a `TimeoutError` instance). -/
theorem claimC2_counterexample_ioerror_not_timeouterror :
    (runserver (initialServer demoInterface none []) [RecvEvent.timeout]).outcome
        = RunOutcome.raised PyErr.ioError ∧
    RunOutcome.raised PyErr.ioError ≠ RunOutcome.raised PyErr.timeoutError := by
  refine ⟨by decide, by decide⟩

/-- Claim C2, amended: for every run in which no request arrives within
`timeout` seconds of entering LISTENING, the server raises
`IOError("Connection timed out")` (not `TimeoutError`); the error
propagates out of the serving loop without retry (exactly one receive call
is made, whatever the rest of the schedule holds), and on this exit path
the state — in particular the open socket — is left untouched. -/
theorem claimC2_timeout_raises_ioerror (st : ServerState) (rest : List RecvEvent) :
    runserver st (RecvEvent.timeout :: rest) =
      ⟨st, 1, RunOutcome.raised PyErr.ioError⟩ := by
  rfl

/-! ### Claim C3 — shutdown when the last client disconnects -/

theorem connectedCount_eq_zero_iff (conn : List (Int × Bool)) :
    connectedCount conn = 0 ↔ ∀ p ∈ conn, p.2 = false := by
  unfold connectedCount
  rw [List.length_eq_zero, List.filter_eq_nil]
  simp

theorem checkLoop_shutdown (st st' : ServerState) (h : checkLoop st = .shutdown st') :
    connectedCount st'.connected = 0 ∧ st'.socketOpen = false ∧
      st'.connected = st.connected := by
  unfold checkLoop at h
  split at h
  · exact absurd h (by simp)
  · rename_i hc
    injection h with h
    subst h
    refine ⟨?_, rfl, rfl⟩
    simp only [disconnectServer]
    omega

theorem checkLoop_next (st st' : ServerState) (h : checkLoop st = .next st') :
    connectedCount st'.connected > 0 := by
  unfold checkLoop at h
  split at h
  · rename_i hc
    injection h with h
    subst h
    exact hc
  · exact absurd h (by simp)

theorem trySetpoints_shutdown (st st' : ServerState) (id : Int)
    (meas : List (String × ℚ)) (h : trySetpoints st id meas = .shutdown st') :
    connectedCount st'.connected = 0 ∧ st'.socketOpen = false := by
  unfold trySetpoints at h
  split at h
  · split at h <;> exact absurd h (by simp)
  · split at h
    · exact absurd h (by simp)
    · rename_i st4 heq
      exact ⟨(checkLoop_shutdown _ _ h).1, (checkLoop_shutdown _ _ h).2.1⟩

theorem trySetpoints_next (st st' : ServerState) (id : Int)
    (meas : List (String × ℚ)) (h : trySetpoints st id meas = .next st') :
    connectedCount st'.connected > 0 := by
  unfold trySetpoints at h
  split at h
  · split at h <;> exact absurd h (by simp)
  · split at h
    · exact absurd h (by simp)
    · exact checkLoop_next _ _ h

theorem processRequest_shutdown (st st' : ServerState) (id : Int)
    (meas : List (String × ℚ)) (h : processRequest st id meas = .shutdown st') :
    connectedCount st'.connected = 0 ∧ st'.socketOpen = false := by
  simp only [processRequest] at h
  split at h
  · exact absurd h (by simp)
  · exact trySetpoints_shutdown _ _ _ _ h

theorem processRequest_next (st st' : ServerState) (id : Int)
    (meas : List (String × ℚ)) (h : processRequest st id meas = .next st') :
    connectedCount st'.connected > 0 := by
  simp only [processRequest] at h
  split at h
  · exact absurd h (by simp)
  · exact trySetpoints_next _ _ _ _ h

theorem serverStep_shutdown (st st' : ServerState) (ev : RecvEvent)
    (h : serverStep st ev = .shutdown st') :
    connectedCount st'.connected = 0 ∧ st'.socketOpen = false := by
  unfold serverStep at h
  split at h
  · exact absurd h (by simp)
  · split at h
    · exact absurd h (by simp)
    · split at h
      · exact absurd h (by simp)
      · exact processRequest_shutdown _ _ _ _ h

theorem serverStep_next (st st' : ServerState) (ev : RecvEvent)
    (h : serverStep st ev = .next st') :
    connectedCount st'.connected > 0 := by
  unfold serverStep at h
  split at h
  · exact absurd h (by simp)
  · split at h
    · exact absurd h (by simp)
    · split at h
      · exact absurd h (by simp)
      · exact processRequest_next _ _ _ _ h

/-- Claim C3 (status: confirmed). After processing a request, if every
registered id is disconnected — equivalently `connectedCount() == 0` — the
iteration ends in SHUTDOWN: the socket is closed and the whole run makes no
further receive calls whatever the rest of the schedule holds; conversely a
`next` outcome (back to LISTENING) happens exactly while at least one
session is still connected, and the run then goes on serving the remaining
schedule. -/
theorem claimC3_shutdown_within_one_iteration (st : ServerState) (ev : RecvEvent)
    (rest : List RecvEvent) :
    (∀ conn : List (Int × Bool),
      (connectedCount conn = 0 ↔ ∀ p ∈ conn, p.2 = false)) ∧
    (∀ st', serverStep st ev = .shutdown st' →
      connectedCount st'.connected = 0 ∧ (∀ p ∈ st'.connected, p.2 = false) ∧
      st'.socketOpen = false ∧
      runserver st (ev :: rest) = ⟨st', 1, RunOutcome.normal⟩) ∧
    (∀ st', serverStep st ev = .next st' →
      connectedCount st'.connected > 0 ∧
      (runserver st (ev :: rest)).recvCount = (runserver st' rest).recvCount + 1) := by
  refine ⟨connectedCount_eq_zero_iff, ?_, ?_⟩
  · intro st' h
    obtain ⟨hzero, hsock⟩ := serverStep_shutdown st st' ev h
    exact ⟨hzero, (connectedCount_eq_zero_iff _).mp hzero, hsock,
      runserver_cons_shutdown st st' ev rest h⟩
  · intro st' h
    refine ⟨serverStep_next st st' ev h, ?_⟩
    rw [runserver_cons_next st st' ev rest h]

/-- The server of the spec's Scenario B: a strategy is installed (returning
no explicit setpoints) and turbine 1 sends `iStatus = -1`. -/
def scenarioBServer : ServerState :=
  initialServer demoInterface (some (fun _ _ _ => [])) []

/-- The disconnect request of Scenario B. -/
def scenarioBEvent : RecvEvent := RecvEvent.msg ("1,-1,0".toList)

/-- A request with `iStatus = 1`, keeping the session connected. -/
def stayEvent : RecvEvent := RecvEvent.msg ("1,1,0".toList)

/-- Witness for claim C3, discharging both hypotheses at concrete inputs:
the Scenario B request drives the fresh server to SHUTDOWN in that very
iteration, and the same request with `iStatus = 1` leaves it serving. -/
theorem claimC3_witness :
    connectedCount
        (stepState (serverStep scenarioBServer scenarioBEvent)).connected = 0 ∧
    (stepState (serverStep scenarioBServer scenarioBEvent)).socketOpen = false ∧
    runserver scenarioBServer [scenarioBEvent] =
      ⟨stepState (serverStep scenarioBServer scenarioBEvent), 1, RunOutcome.normal⟩ ∧
    connectedCount (stepState (serverStep scenarioBServer stayEvent)).connected > 0 := by
  have hB := (claimC3_shutdown_within_one_iteration scenarioBServer scenarioBEvent []).2.1
    (stepState (serverStep scenarioBServer scenarioBEvent)) (by rfl)
  have hStay := (claimC3_shutdown_within_one_iteration scenarioBServer stayEvent []).2.2
    (stepState (serverStep scenarioBServer stayEvent)) (by rfl)
  exact ⟨hB.1, hB.2.2.1, hB.2.2.2, hStay.1⟩

/-! ### Claim C4 — disconnect monotonicity -/

theorem add_unique_preserves_false (conn : List (Int × Bool))
    (self : wfc_zmq_connections) (id id' : Int)
    (h : dictGet conn id = some false) :
    dictGet (add_unique conn self id').1 id = some false := by
  unfold add_unique
  split
  · exact h
  · rename_i hkey
    by_cases hid : id' = id
    · subst hid
      exact absurd (dictHasKey_of_dictGet conn id' false h) hkey
    · simpa [dictGet_update_ne conn id' id true (fun hc => hid hc.symm)] using h

theorem update_measurements_preserves_false (conn : List (Int × Bool))
    (self : wfc_zmq_connections) (id id' : Int) (meas : List (String × ℚ))
    (h : dictGet conn id = some false) :
    dictGet (update_measurements conn self id' meas).1 id = some false := by
  unfold update_measurements
  split
  · exact h
  · split
    · exact dictGet_update_false_of_false conn id id' h
    · exact h

theorem update_measurements_disconnects (conn : List (Int × Bool))
    (self : wfc_zmq_connections) (id : Int) (meas : List (String × ℚ))
    (h : dictGet meas "iStatus" = some (-1)) :
    dictGet (update_measurements conn self id meas).1 id = some false := by
  unfold update_measurements
  rw [h]
  simp only [if_pos rfl]
  exact dictGet_update_self conn id false

theorem send_setpoints_ok_connected (st st' : ServerState) (id : Int)
    (h : send_setpoints st id = .ok st') : st'.connected = st.connected := by
  unfold send_setpoints at h
  split at h
  · exact absurd h (by simp)
  · injection h with h
    subst h
    rfl

theorem stepState_checkLoop_connected (st : ServerState) :
    (stepState (checkLoop st)).connected = st.connected := by
  unfold checkLoop
  split <;> rfl

theorem stepState_trySetpoints_connected (st : ServerState) (id : Int)
    (meas : List (String × ℚ)) :
    (stepState (trySetpoints st id meas)).connected = st.connected := by
  unfold trySetpoints
  split
  · split <;> rfl
  · split
    · rfl
    · rename_i st4 heq
      rw [stepState_checkLoop_connected, send_setpoints_ok_connected _ _ _ heq]

theorem stepState_processRequest_connected (st : ServerState) (id : Int)
    (meas : List (String × ℚ)) :
    (stepState (processRequest st id meas)).connected =
      (update_measurements (add_unique st.connected st.conns id).1
        (add_unique st.connected st.conns id).2 id meas).1 := by
  simp only [processRequest]
  split
  · rfl
  · rw [stepState_trySetpoints_connected]

theorem serverStep_preserves_false (id : Int) (st : ServerState) (ev : RecvEvent)
    (h : dictGet st.connected id = some false) :
    dictGet (stepState (serverStep st ev)).connected id = some false := by
  unfold serverStep
  split
  · exact h
  · split
    · exact h
    · split
      · exact h
      · rename_i meas qid heq
        rw [stepState_processRequest_connected]
        exact update_measurements_preserves_false _ _ _ _ _
          (add_unique_preserves_false _ _ _ _ h)

theorem connectedCount_drop_false_entry (id : Int) :
    ∀ conn : List (Int × Bool), dictGet conn id = some false →
      (conn.map Prod.fst).Nodup →
      connectedCount conn = connectedCount (conn.filter (fun p => p.1 != id)) := by
  intro conn
  induction conn with
  | nil => intro h _; simp [dictGet, List.find?] at h
  | cons q rest ih =>
    intro h hnodup
    simp only [List.map_cons, List.nodup_cons] at hnodup
    by_cases hq : q.1 = id
    · have hqv : q.2 = false := by
        simp [dictGet, List.find?, hq] at h
        cases q
        simp_all
      have hrest : rest.filter (fun p => p.1 != id) = rest := by
        apply List.filter_eq_self.mpr
        intro p hp
        have : p.1 ≠ id := by
          intro hc
          exact hnodup.1 (by rw [hq, ← hc]; exact List.mem_map_of_mem Prod.fst hp)
        simpa using this
      simp [connectedCount, List.filter_cons, hq, hqv, hrest]
    · have hrest : dictGet rest id = some false := by
        simp only [dictGet, List.find?] at h ⊢
        rw [show (decide (q.1 = id)) = false by simp [hq]] at h
        exact h
      have := ih hrest hnodup.2
      simp only [connectedCount, List.filter_cons] at this ⊢
      have hne : (q.1 != id) = true := by simpa using hq
      rw [hne]
      simp only [if_true]
      cases hv : q.2 <;> simp [hv, this, connectedCount]

/-- Claim C4 (status: confirmed). Disconnection is monotone per id:
processing a measurement with `iStatus == -1` marks the id disconnected;
no later `_add_unique` (repeated registration) and no later
`_update_measurements` (any measurement whatsoever) ever sets it back to
connected, neither over a single loop step nor over a whole serving run;
and a disconnected entry contributes 0 to `connectedCount()` — the count
equals the count over the other ids alone. -/
theorem claimC4_disconnect_monotone (id : Int) :
    (∀ (conn : List (Int × Bool)) (self : wfc_zmq_connections)
        (meas : List (String × ℚ)), dictGet meas "iStatus" = some (-1) →
      dictGet (update_measurements conn self id meas).1 id = some false) ∧
    (∀ (conn : List (Int × Bool)) (self : wfc_zmq_connections) (id' : Int),
      dictGet conn id = some false →
      dictGet (add_unique conn self id').1 id = some false) ∧
    (∀ (conn : List (Int × Bool)) (self : wfc_zmq_connections) (id' : Int)
        (meas : List (String × ℚ)), dictGet conn id = some false →
      dictGet (update_measurements conn self id' meas).1 id = some false) ∧
    (∀ (st : ServerState) (ev : RecvEvent),
      dictGet st.connected id = some false →
      dictGet (stepState (serverStep st ev)).connected id = some false) ∧
    (∀ (st : ServerState) (evs : List RecvEvent),
      dictGet st.connected id = some false →
      dictGet ((runserver st evs).state).connected id = some false) ∧
    (∀ conn : List (Int × Bool), dictGet conn id = some false →
      (conn.map Prod.fst).Nodup →
      connectedCount conn = connectedCount (conn.filter (fun p => p.1 != id))) := by
  refine ⟨fun conn self meas h => update_measurements_disconnects conn self id meas h,
    fun conn self id' h => add_unique_preserves_false conn self id id' h,
    fun conn self id' meas h => update_measurements_preserves_false conn self id id' meas h,
    fun st ev h => serverStep_preserves_false id st ev h,
    ?_, connectedCount_drop_false_entry id⟩
  intro st evs h
  exact runserver_preserves (fun s => dictGet s.connected id = some false)
    (serverStep_preserves_false id) evs st h

/-- Witness for claim C4 at concrete inputs: after turbine 1's disconnect
request (Scenario B), its entry is `false`, stays `false` through a further
registration, measurement update and served request, and contributes 0 to
the connected count. -/
theorem claimC4_witness :
    dictGet (update_measurements [(1, true)] (freshConnections demoInterface) 1
      [("iStatus", -1)]).1 1 = some false ∧
    dictGet (add_unique [(1, false)] (freshConnections demoInterface) 1).1 1
      = some false ∧
    dictGet (update_measurements [(1, false)] (freshConnections demoInterface) 1
      [("iStatus", 1)]).1 1 = some false ∧
    dictGet ((runserver
        { scenarioBServer with connected := [(1, false)] } [stayEvent]).state).connected 1
      = some false ∧
    connectedCount [(1, false), (2, true)] =
      connectedCount ([(1, false), (2, true)].filter (fun p => p.1 != 1)) := by
  refine ⟨(claimC4_disconnect_monotone 1).1 _ _ _ (by decide),
    (claimC4_disconnect_monotone 1).2.1 _ _ _ (by decide),
    (claimC4_disconnect_monotone 1).2.2.1 _ _ _ _ (by decide),
    (claimC4_disconnect_monotone 1).2.2.2.2.1 _ _ (by decide),
    (claimC4_disconnect_monotone 1).2.2.2.2.2 _ (by decide) (by decide)⟩

/-! ### Claim C8 — wholesale measurement replacement -/

/-- Claim C8 (status: confirmed). Whatever the registry held before — i.e.
after any sequence of earlier requests — `_update_measurements(id, meas)`
leaves the measurements of `id` equal to exactly the mapping just decoded:
a wholesale replacement, never a merge with or retention of earlier values.
The statement quantifies over every prior registry state, so it covers every
request sequence from a single id. -/
theorem claimC8_update_measurements_wholesale (conn : List (Int × Bool))
    (self : wfc_zmq_connections) (id : Int) (meas : List (String × ℚ)) :
    dictGet (update_measurements conn self id meas).2.1.measurements id = some meas := by
  unfold update_measurements
  split
  · exact dictGet_update_self self.measurements id meas
  · split <;> exact dictGet_update_self self.measurements id meas

/-! ### Claim C10 — class-level connected table is shared across instances -/

/-- Claim C10 (status: confirmed). The `connected` table is class-level state
shared by every `wfc_zmq_connections` instance: when an id is already in it,
`_add_unique(id)` on any instance — in particular a freshly constructed one —
changes nothing at all, so the new instance gets no `measurements` or
`setpoints` entry for that id: a "connected" id with no per-instance session
state. -/
theorem claimC10_connected_is_class_level (conn : List (Int × Bool))
    (iface : WfcInterface) (id : Int) (h : dictHasKey conn id = true) :
    (∀ self : wfc_zmq_connections, add_unique conn self id = (conn, self)) ∧
    add_unique conn (freshConnections iface) id = (conn, freshConnections iface) ∧
    dictGet (add_unique conn (freshConnections iface) id).2.setpoints id = none ∧
    dictGet (add_unique conn (freshConnections iface) id).2.measurements id = none := by
  have hnoop : ∀ self : wfc_zmq_connections, add_unique conn self id = (conn, self) := by
    intro self
    unfold add_unique
    rw [if_pos h]
  refine ⟨hnoop, hnoop _, ?_, ?_⟩ <;>
    rw [hnoop (freshConnections iface)] <;> rfl

/-- Witness for claim C10: id 7 is marked connected process-wide, and
`_add_unique 7` on a fresh instance leaves that instance entirely empty. -/
theorem claimC10_witness :
    add_unique [(7, true)] (freshConnections demoInterface) 7
        = ([(7, true)], freshConnections demoInterface) ∧
    dictGet (add_unique [(7, true)] (freshConnections demoInterface) 7).2.setpoints 7
        = none := by
  have h := claimC10_connected_is_class_level [(7, true)] demoInterface 7 (by decide)
  exact ⟨h.2.1, h.2.2.1⟩

/-! ### Claim C5 — decode machinery -/

theorem parseUnsigned_chars (s : List Char) (q : ℚ) (h : parseUnsigned s = some q) :
    ∀ c ∈ s, isDig c = true ∨ c = '.' := by
  intro c hc
  rw [← List.takeWhile_append_dropWhile (p := isDig) (l := s)] at hc
  rcases List.mem_append.mp hc with hmem | hmem
  · exact Or.inl (List.mem_takeWhile_imp hmem)
  · simp only [parseUnsigned] at h
    split at h
    · rename_i hrest
      rw [hrest] at hmem
      simp at hmem
    · rename_i c' fp hrest
      rw [hrest] at hmem
      split at h
      · rename_i hdot
        split at h
        · rename_i hfp
          rcases List.mem_cons.mp hmem with rfl | hfp'
          · exact Or.inr hdot
          · exact Or.inl (by simpa using (List.all_eq_true.mp hfp.1) c hfp')
        · exact absurd h (by simp)
      · exact absurd h (by simp)

theorem pyFloat?_chars (s : List Char) (q : ℚ) (h : pyFloat? s = some q) :
    ∀ c ∈ s, isDig c = true ∨ c = '.' ∨ c = '+' ∨ c = '-' := by
  intro c hc
  unfold pyFloat? at h
  split at h
  · simp at h
  · rename_i c0 rest
    split at h
    · rename_i hplus
      rcases List.mem_cons.mp hc with rfl | hrest
      · exact Or.inr (Or.inr (Or.inl hplus))
      · rcases parseUnsigned_chars rest q h c hrest with hd | hd
        · exact Or.inl hd
        · exact Or.inr (Or.inl hd)
    · split at h
      · rename_i hminus
        rcases List.mem_cons.mp hc with rfl | hrest
        · exact Or.inr (Or.inr (Or.inr hminus))
        · rcases Option.map_eq_some'.mp h with ⟨q', hq', _⟩
          rcases parseUnsigned_chars rest q' hq' c hrest with hd | hd
          · exact Or.inl hd
          · exact Or.inr (Or.inl hd)
      · rcases parseUnsigned_chars _ q h c hc with hd | hd
        · exact Or.inl hd
        · exact Or.inr (Or.inl hd)

theorem pyFloat?_no_comma (s : List Char) (q : ℚ) (h : pyFloat? s = some q) :
    ∀ c ∈ s, c ≠ ',' := by
  intro c hc hcomma
  subst hcomma
  rcases pyFloat?_chars s q h ',' hc with hd | hd | hd | hd <;> simp_all [isDig]

theorem pyFloat?_no_null (s : List Char) (q : ℚ) (h : pyFloat? s = some q) :
    ∀ c ∈ s, c ≠ '\x00' := by
  intro c hc hnull
  subst hnull
  rcases pyFloat?_chars s q h _ hc with hd | hd | hd | hd <;> simp_all [isDig]

theorem splitOnComma_ne_nil (l : List Char) : splitOnComma l ≠ [] := by
  induction l with
  | nil => simp [splitOnComma]
  | cons c rest ih =>
    by_cases hc : c = ','
    · simp [splitOnComma, hc]
    · simp only [splitOnComma, if_neg hc]
      cases h : splitOnComma rest with
      | nil => exact absurd h ih
      | cons t ts => simp [consHead]

theorem splitOnComma_append_free (f l : List Char) (hf : ∀ c ∈ f, c ≠ ',') :
    ∀ t ts, splitOnComma l = t :: ts → splitOnComma (f ++ l) = (f ++ t) :: ts := by
  induction f with
  | nil => intro t ts h; simpa using h
  | cons c f ih =>
    intro t ts h
    have hc : ¬ (c = ',') := hf c (List.mem_cons_self c f)
    simp only [List.cons_append, splitOnComma, if_neg hc, List.append_eq]
    rw [ih (fun c hc' => hf c (List.mem_cons_of_mem _ hc')) t ts h]
    simp [consHead]

theorem splitOnComma_joinSep (ts : List (List Char)) (hne : ts ≠ [])
    (hfree : ∀ t ∈ ts, ∀ c ∈ t, c ≠ ',') :
    splitOnComma (joinSep [','] ts) = ts := by
  induction ts with
  | nil => exact absurd rfl hne
  | cons t rest ih =>
    cases rest with
    | nil =>
      simp only [joinSep]
      have := splitOnComma_append_free t [] (hfree t (by simp)) [] []
        (by simp [splitOnComma])
      simpa using this
    | cons t2 rest2 =>
      have hjoin : joinSep [','] (t :: t2 :: rest2) =
          t ++ (',' :: joinSep [','] (t2 :: rest2)) := by
        simp [joinSep]
      rw [hjoin]
      have hrest : splitOnComma (',' :: joinSep [','] (t2 :: rest2)) =
          [] :: (t2 :: rest2) := by
        have hstep : splitOnComma (',' :: joinSep [','] (t2 :: rest2)) =
            [] :: splitOnComma (joinSep [','] (t2 :: rest2)) := by
          simp [splitOnComma]
        rw [hstep, ih (by simp) (fun u hu => hfree u (List.mem_cons_of_mem _ hu))]
      have := splitOnComma_append_free t (',' :: joinSep [','] (t2 :: rest2))
        (hfree t (by simp)) [] (t2 :: rest2) hrest
      simpa using this

theorem stripNulls_eq_self (l : List Char) (h : ∀ c ∈ l, c ≠ '\x00') :
    stripNulls l = l := by
  unfold stripNulls
  apply List.filter_eq_self.mpr
  intro c hc
  simpa using h c hc

theorem mem_joinSep (sep : List Char) (ts : List (List Char)) (c : Char) :
    c ∈ joinSep sep ts → (∃ t ∈ ts, c ∈ t) ∨ c ∈ sep := by
  induction ts with
  | nil => intro h; simp [joinSep] at h
  | cons t rest ih =>
    cases rest with
    | nil =>
      intro h
      exact Or.inl ⟨t, by simp, by simpa [joinSep] using h⟩
    | cons t2 rest2 =>
      intro h
      simp only [joinSep, List.append_assoc, List.mem_append] at h
      rcases h with h | h | h
      · exact Or.inl ⟨t, by simp, h⟩
      · exact Or.inr h
      · rcases ih h with ⟨u, hu, hcu⟩ | h
        · exact Or.inl ⟨u, List.mem_cons_of_mem _ hu, hcu⟩
        · exact Or.inr h

theorem parseAll_of_forall₂ (ts : List (List Char)) (qs : List ℚ)
    (h : List.Forall₂ (fun t q => pyFloat? t = some q) ts qs) :
    parseAll ts = some qs := by
  induction h with
  | nil => rfl
  | cons hpq _ ih =>
    rename_i t q ts' qs'
    simp [parseAll, hpq, ih]

theorem parseAll_none_of_mem (ts : List (List Char)) (t : List Char)
    (hmem : t ∈ ts) (hnone : pyFloat? t = none) : parseAll ts = none := by
  induction ts with
  | nil => simp at hmem
  | cons u rest ih =>
    rcases List.mem_cons.mp hmem with rfl | hmem'
    · simp [parseAll, hnone]
    · simp only [parseAll, ih hmem']
      cases pyFloat? u <;> rfl

theorem parseAll_length (ts : List (List Char)) (qs : List ℚ)
    (h : parseAll ts = some qs) : qs.length = ts.length := by
  induction ts generalizing qs with
  | nil =>
    simp only [parseAll, Option.some_inj] at h
    subst h
    rfl
  | cons t rest ih =>
    simp only [parseAll] at h
    cases hp : pyFloat? t with
    | none => rw [hp] at h; simp at h
    | some q =>
      rw [hp] at h
      cases hr : parseAll rest with
      | none => rw [hr] at h; simp at h
      | some qs' =>
        rw [hr] at h
        injection h with h
        subst h
        simpa using ih qs' hr

theorem parseAll_forall₂ (ts : List (List Char)) (qs : List ℚ)
    (h : parseAll ts = some qs) :
    List.Forall₂ (fun t q => pyFloat? t = some q) ts qs := by
  induction ts generalizing qs with
  | nil =>
    simp only [parseAll, Option.some_inj] at h
    subst h
    exact List.Forall₂.nil
  | cons t rest ih =>
    simp only [parseAll] at h
    cases hp : pyFloat? t with
    | none => rw [hp] at h; simp at h
    | some q =>
      rw [hp] at h
      cases hr : parseAll rest with
      | none => rw [hr] at h; simp at h
      | some qs' =>
        rw [hr] at h
        injection h with h
        subst h
        exact List.Forall₂.cons hp (ih qs' hr)

theorem dictUpdate_of_not_hasKey {α β : Type} [DecidableEq α]
    (d : List (α × β)) (k : α) (v : β) (h : dictHasKey d k = false) :
    dictUpdate d k v = d ++ [(k, v)] := by
  induction d with
  | nil => rfl
  | cons q rest ih =>
    simp only [dictHasKey, List.any_cons, Bool.or_eq_false_iff] at h
    have hq : ¬ (q.1 = k) := by
      intro hc
      simp [hc] at h
    simp only [dictUpdate, if_neg hq, List.cons_append]
    rw [ih (by simpa [dictHasKey] using h.2)]

theorem foldl_dictUpdate_fresh {α β : Type} [DecidableEq α] :
    ∀ (pairs : List (α × β)) (d : List (α × β)),
      (pairs.map Prod.fst).Nodup →
      (∀ k ∈ pairs.map Prod.fst, dictHasKey d k = false) →
      pairs.foldl (fun d p => dictUpdate d p.1 p.2) d = d ++ pairs := by
  intro pairs
  induction pairs with
  | nil => intro d _ _; simp
  | cons p rest ih =>
    intro d hnodup hfresh
    simp only [List.map_cons, List.nodup_cons] at hnodup
    simp only [List.foldl_cons]
    rw [dictUpdate_of_not_hasKey d p.1 p.2 (hfresh p.1 (by simp))]
    rw [ih (d ++ [(p.1, p.2)]) hnodup.2 ?fresh]
    · simp
    case fresh =>
      intro k hk
      have hkd : dictHasKey d k = false := hfresh k (by simp [hk])
      have hkp : k ≠ p.1 := fun hc => hnodup.1 (hc ▸ hk)
      have hpk : p.1 ≠ k := fun hc => hkp hc.symm
      simp only [dictHasKey, List.any_append, Bool.or_eq_false_iff]
      refine ⟨by simpa [dictHasKey] using hkd, by simp [dictHasKey, hpk]⟩

theorem zip_map_fst_sublist {α β : Type} :
    ∀ (s : List α) (v : List β), ((s.zip v).map Prod.fst).Sublist s := by
  intro s
  induction s with
  | nil => intro v; simp
  | cons a s ih =>
    intro v
    cases v with
    | nil => simp
    | cons b v => simpa using (ih v).cons₂ a

theorem buildMeasDict_eq_zip (schema : List String) (vals : List ℚ)
    (hnodup : schema.Nodup) : buildMeasDict schema vals = schema.zip vals := by
  unfold buildMeasDict
  rw [foldl_dictUpdate_fresh (schema.zip vals) []
    (hnodup.sublist (zip_map_fst_sublist schema vals)) (fun k _ => rfl)]
  simp

theorem dictGet_zip_nodup {α β : Type} [DecidableEq α] :
    ∀ (s : List α) (v : List β), s.Nodup →
      ∀ (i : Nat) (hi : i < s.length) (hv : i < v.length),
        dictGet (s.zip v) (s.get ⟨i, hi⟩) = some (v.get ⟨i, hv⟩) := by
  intro s
  induction s with
  | nil => intro v _ i hi _; simp at hi
  | cons a s ih =>
    intro v hnodup i hi hv
    cases v with
    | nil => simp at hv
    | cons b v =>
      have hnodup' := List.nodup_cons.mp hnodup
      cases i with
      | zero => simp [dictGet, List.find?]
      | succ i =>
        have hi' : i < s.length := by simpa using hi
        have hv' : i < v.length := by simpa using hv
        have hkey : s.get ⟨i, hi'⟩ ∈ s := s.get_mem i hi'
        have hne : ¬ (a = s.get ⟨i, hi'⟩) := fun hc => hnodup'.1 (hc ▸ hkey)
        have hrec := ih v hnodup'.2 i hi' hv'
        simp only [List.zip_cons_cons, List.get_cons_succ, dictGet, List.find?,
          List.get_eq_getElem, List.getElem_cons_succ] at hrec ⊢
        rw [show (decide (a = s[i])) = false by
          simpa [List.get_eq_getElem] using hne]
        exact hrec

/-! ### Claim C5 — decode contract -/

/-- Counterexample for claim C5 as stated: the claim demands failure
whenever the token count does not equal the schema length, but the code
only fails when the count falls short: four tokens against the
three-channel schema decode fine, the extra token silently ignored. -/
theorem claimC5_counterexample_extra_fields :
    decode ["ZMQ_ID", "iStatus", "Time"] ("1,1,0,42".toList)
        = PyResult.ok [("ZMQ_ID", 1), ("iStatus", 1), ("Time", 0)] ∧
    (splitOnComma (stripNulls ("1,1,0,42".toList))).length ≠
      (["ZMQ_ID", "iStatus", "Time"] : List String).length := by
  refine ⟨by decide, by decide⟩

/-- Claim C5, amended (status: corrected). After stripping embedded nulls
and splitting on `','`: when every token parses as a decimal number and the
token count is **at least** the schema length, decode succeeds and maps
schema measurement name `i` to float value `i` (for a duplicate-free
schema); it fails with `ValueError` on any non-numeric token (even one
beyond the schema length) and with `IndexError` when the token count is
**less than** the schema length — extra well-formed fields are ignored, not
rejected. Decoding a schema-ordered comma-joined list of numeral tokens
yields exactly the original float list. -/
theorem claimC5_decode_contract :
    (∀ (schema : List String) (raw : List Char) (qs : List ℚ),
      parseAll (splitOnComma (stripNulls raw)) = some qs →
      schema.length ≤ qs.length →
      decode schema raw = .ok (buildMeasDict schema qs)) ∧
    (∀ (schema : List String) (raw : List Char) (t : List Char),
      t ∈ splitOnComma (stripNulls raw) → pyFloat? t = none →
      decode schema raw = .raise .valueError) ∧
    (∀ (schema : List String) (raw : List Char) (qs : List ℚ),
      parseAll (splitOnComma (stripNulls raw)) = some qs →
      qs.length < schema.length →
      decode schema raw = .raise .indexError) ∧
    (∀ (schema : List String) (vals : List ℚ), schema.Nodup →
      ∀ (i : Nat) (hi : i < schema.length) (hv : i < vals.length),
        dictGet (buildMeasDict schema vals) (schema.get ⟨i, hi⟩)
          = some (vals.get ⟨i, hv⟩)) ∧
    (∀ (schema : List String) (ts : List (List Char)) (qs : List ℚ),
      List.Forall₂ (fun t q => pyFloat? t = some q) ts qs → ts ≠ [] →
      schema.length ≤ ts.length →
      decode schema (joinSep [','] ts) = .ok (buildMeasDict schema qs)) := by
  have hok : ∀ (schema : List String) (raw : List Char) (qs : List ℚ),
      parseAll (splitOnComma (stripNulls raw)) = some qs →
      schema.length ≤ qs.length →
      decode schema raw = .ok (buildMeasDict schema qs) := by
    intro schema raw qs h hlen
    simp only [decode]
    rw [h]
    simp [hlen]
  refine ⟨hok, ?_, ?_, ?_, ?_⟩
  · intro schema raw t hmem hnone
    simp only [decode]
    rw [parseAll_none_of_mem _ t hmem hnone]
  · intro schema raw qs h hlt
    simp only [decode]
    rw [h]
    simp only [if_neg (by omega : ¬ schema.length ≤ qs.length)]
  · intro schema vals hnodup i hi hv
    rw [buildMeasDict_eq_zip schema vals hnodup]
    exact dictGet_zip_nodup schema vals hnodup i hi hv
  · intro schema ts qs hF hne hlen
    have hP : parseAll ts = some qs := parseAll_of_forall₂ ts qs hF
    have hsome : ∀ t ∈ ts, ∃ q, pyFloat? t = some q := by
      intro t ht
      cases hp : pyFloat? t with
      | none =>
        rw [parseAll_none_of_mem ts t ht hp] at hP
        exact absurd hP (by simp)
      | some q => exact ⟨q, rfl⟩
    have hfree : ∀ t ∈ ts, ∀ c ∈ t, c ≠ ',' := by
      intro t ht c hc
      obtain ⟨q, hq⟩ := hsome t ht
      exact pyFloat?_no_comma t q hq c hc
    have hnull : ∀ c ∈ joinSep [','] ts, c ≠ '\x00' := by
      intro c hc
      rcases mem_joinSep _ _ _ hc with ⟨t, ht, hct⟩ | hsep
      · obtain ⟨q, hq⟩ := hsome t ht
        exact pyFloat?_no_null t q hq c hct
      · intro hcn
        subst hcn
        simp at hsep
    have hqlen : ts.length = qs.length := hF.length_eq
    apply hok
    · rw [stripNulls_eq_self _ hnull, splitOnComma_joinSep ts hne hfree]
      exact hP
    · omega

/-- Witness for claim C5, discharging each hypothesis at concrete inputs:
a well-formed three-token request decodes, a non-numeric token raises
`ValueError`, a short request raises `IndexError`, position lookups give the
positional values, and the comma-joined round-trip decodes to the original
list. -/
theorem claimC5_witness :
    decode ["ZMQ_ID", "iStatus", "Time"] ("1,1,0".toList)
        = PyResult.ok (buildMeasDict ["ZMQ_ID", "iStatus", "Time"] [1, 1, 0]) ∧
    decode ["ZMQ_ID", "iStatus", "Time"] ("1,x,0".toList)
        = PyResult.raise PyErr.valueError ∧
    decode ["ZMQ_ID", "iStatus", "Time"] ("1,1".toList)
        = PyResult.raise PyErr.indexError ∧
    dictGet (buildMeasDict ["ZMQ_ID", "iStatus", "Time"] [1, 1, 0]) "iStatus"
        = some 1 ∧
    decode ["ZMQ_ID", "iStatus", "Time"]
        (joinSep [','] ["1".toList, "1".toList, "0".toList])
        = PyResult.ok (buildMeasDict ["ZMQ_ID", "iStatus", "Time"] [1, 1, 0]) := by
  refine ⟨claimC5_decode_contract.1 _ _ [1, 1, 0] (by decide) (by decide),
    claimC5_decode_contract.2.1 _ _ ("x".toList) (by decide) (by decide),
    claimC5_decode_contract.2.2.1 _ _ [1, 1] (by decide) (by decide),
    claimC5_decode_contract.2.2.2.1 ["ZMQ_ID", "iStatus", "Time"] [1, 1, 0]
      (by decide) 1 (by decide) (by decide),
    claimC5_decode_contract.2.2.2.2 _ ["1".toList, "1".toList, "0".toList] [1, 1, 0]
      (List.Forall₂.cons (by decide)
        (List.Forall₂.cons (by decide)
          (List.Forall₂.cons (by decide) List.Forall₂.nil)))
      (by simp) (by decide)⟩

/-! ### Claim C6 — digit-string arithmetic -/

theorem digitsToNat_foldl (l : List Char) :
    ∀ acc : Nat, l.foldl (fun a c => 10 * a + (c.toNat - 48)) acc
      = acc * 10 ^ l.length + digitsToNat l := by
  induction l with
  | nil => intro acc; simp [digitsToNat]
  | cons c l ih =>
    intro acc
    have hdt : digitsToNat (c :: l) = (c.toNat - 48) * 10 ^ l.length + digitsToNat l := by
      unfold digitsToNat
      rw [List.foldl_cons, ih (10 * 0 + (c.toNat - 48))]
      simp [digitsToNat]
    rw [hdt, List.foldl_cons, ih (10 * acc + (c.toNat - 48)), List.length_cons]
    ring

theorem digitsToNat_append (a b : List Char) :
    digitsToNat (a ++ b) = digitsToNat a * 10 ^ b.length + digitsToNat b := by
  unfold digitsToNat
  rw [List.foldl_append]
  rw [digitsToNat_foldl b (List.foldl (fun a c => 10 * a + (c.toNat - 48)) 0 a)]
  rfl

theorem digitsToNat_replicate_zero (k : Nat) :
    digitsToNat (List.replicate k '0') = 0 := by
  induction k with
  | zero => rfl
  | succ k ih =>
    rw [List.replicate_succ, show ('0' :: List.replicate k '0')
        = ['0'] ++ List.replicate k '0' from rfl, digitsToNat_append, ih]
    simp [digitsToNat]

theorem digitsToNat_padZeros (k : Nat) (l : List Char) :
    digitsToNat (padZeros k l) = digitsToNat l := by
  unfold padZeros
  rw [digitsToNat_append, digitsToNat_replicate_zero]
  simp

/-- A digit value below ten renders as a valid decimal digit character. -/
theorem digitChar_spec (d : Nat) (hd : d < 10) :
    (Char.ofNat (48 + d)).toNat = 48 + d ∧ isDig (Char.ofNat (48 + d)) = true := by
  interval_cases d <;> exact ⟨by decide, by decide⟩

theorem natDigitsAux_spec : ∀ (fuel n : Nat), n < fuel →
    digitsToNat (natDigitsAux fuel n) = n ∧
    (∀ c ∈ natDigitsAux fuel n, isDig c = true) ∧
    natDigitsAux fuel n ≠ [] := by
  intro fuel
  induction fuel with
  | zero => intro n hn; omega
  | succ fuel ih =>
    intro n hn
    by_cases hsmall : n < 10
    · simp only [natDigitsAux, if_pos hsmall]
      obtain ⟨hval, hdig⟩ := digitChar_spec n hsmall
      refine ⟨?_, ?_, by simp⟩
      · simp [digitsToNat, hval]
      · intro c hc
        simp only [List.mem_singleton] at hc
        subst hc
        exact hdig
    · simp only [natDigitsAux, if_neg hsmall]
      have hrec := ih (n / 10) (by omega)
      obtain ⟨hval10, hdig10⟩ := digitChar_spec (n % 10) (Nat.mod_lt _ (by omega))
      refine ⟨?_, ?_, by simp⟩
      · rw [digitsToNat_append, hrec.1]
        simp only [List.length_singleton, pow_one]
        have : digitsToNat [Char.ofNat (48 + n % 10)] = n % 10 := by
          simp [digitsToNat, hval10]
        rw [this]
        omega
      · intro c hc
        rcases List.mem_append.mp hc with hc | hc
        · exact hrec.2.1 c hc
        · simp only [List.mem_singleton] at hc
          subst hc
          exact hdig10

theorem natDigits_val (n : Nat) : digitsToNat (natDigits n) = n :=
  (natDigitsAux_spec (n + 1) n (by omega)).1

theorem natDigits_digits (n : Nat) : ∀ c ∈ natDigits n, isDig c = true :=
  (natDigitsAux_spec (n + 1) n (by omega)).2.1

theorem natDigits_ne_nil (n : Nat) : natDigits n ≠ [] :=
  (natDigitsAux_spec (n + 1) n (by omega)).2.2

theorem natDigitsAux_length : ∀ (fuel n k : Nat), n < fuel → n < 10 ^ k →
    1 ≤ k → (natDigitsAux fuel n).length ≤ k := by
  intro fuel
  induction fuel with
  | zero => intro n k hn _ hk; omega
  | succ fuel ih =>
    intro n k hn hnk hk
    by_cases hsmall : n < 10
    · simp only [natDigitsAux, if_pos hsmall, List.length_singleton]
      omega
    · simp only [natDigitsAux, if_neg hsmall, List.length_append,
        List.length_singleton]
      have hk2 : 2 ≤ k := by
        by_contra hc
        have hk1 : k = 1 := by omega
        subst hk1
        simp [pow_one] at hnk
        omega
      have hpow : 10 ^ k = 10 * 10 ^ (k - 1) := by
        conv_lhs => rw [show k = (k - 1) + 1 by omega]
        rw [pow_succ]
        ring
      have hdiv : n / 10 < 10 ^ (k - 1) := by
        rw [hpow] at hnk
        omega
      have := ih (n / 10) (k - 1) (by omega) hdiv (by omega)
      omega

theorem natDigits_length_le (n k : Nat) (hn : n < 10 ^ k) (hk : 1 ≤ k) :
    (natDigits n).length ≤ k :=
  natDigitsAux_length (n + 1) n k (by omega) hn hk

/-! ### Claim C6 — parsing a fixed-width formatted field -/

theorem isDig_ne_special (c : Char) (h : isDig c = true) :
    c ≠ '+' ∧ c ≠ '-' ∧ c ≠ '.' ∧ c ≠ ',' ∧ c ≠ '\x00' := by
  refine ⟨?_, ?_, ?_, ?_, ?_⟩ <;> intro hc <;> subst hc <;> simp [isDig] at h

theorem takeWhile_append_dot (ds fs : List Char)
    (hds : ∀ c ∈ ds, isDig c = true) :
    (ds ++ '.' :: fs).takeWhile isDig = ds ∧
    (ds ++ '.' :: fs).dropWhile isDig = '.' :: fs := by
  induction ds with
  | nil => simp [List.takeWhile, List.dropWhile, isDig]
  | cons c ds ih =>
    have hc : isDig c = true := hds c (by simp)
    have hih := ih (fun c' hc' => hds c' (by simp [hc']))
    simp only [List.cons_append, List.takeWhile_cons, List.dropWhile_cons, hc,
      if_true, hih.1, hih.2]
    simp

theorem parseUnsigned_shape (ds fs : List Char) (hds : ∀ c ∈ ds, isDig c = true)
    (hne : ds ≠ []) (hfs : ∀ c ∈ fs, isDig c = true) :
    parseUnsigned (ds ++ '.' :: fs)
      = some ((digitsToNat ds : ℚ) + (digitsToNat fs : ℚ) / 10 ^ fs.length) := by
  obtain ⟨htake, hdrop⟩ := takeWhile_append_dot ds fs hds
  simp only [parseUnsigned, htake, hdrop]
  rw [if_pos (show fs.all isDig = true ∧ (ds ≠ [] ∨ fs ≠ []) from
    ⟨by simpa [List.all_eq_true] using hfs, Or.inl hne⟩)]
  simp

/-- Every character of a formatted field is a digit, the decimal point, or
the leading minus sign. -/
theorem formatFixed16_5_chars (q : ℚ) :
    ∀ c ∈ formatFixed16_5 q, isDig c = true ∨ c = '.' ∨ c = '-' := by
  intro c hc
  have hbody : ∀ c, c ∈ natDigits ((roundHalfEven (q * 100000)).natAbs / 100000)
        ++ '.' :: padZeros 5 (natDigits ((roundHalfEven (q * 100000)).natAbs % 100000)) →
      isDig c = true ∨ c = '.' ∨ c = '-' := by
    intro c hc
    rcases List.mem_append.mp hc with hc | hc
    · exact Or.inl (natDigits_digits _ c hc)
    · rcases List.mem_cons.mp hc with rfl | hc
      · exact Or.inr (Or.inl rfl)
      · unfold padZeros at hc
        rcases List.mem_append.mp hc with hc | hc
        · have := List.eq_of_mem_replicate hc
          subst this
          exact Or.inl (by decide)
        · exact Or.inl (natDigits_digits _ c hc)
  by_cases hneg : roundHalfEven (q * 100000) < 0
  · simp only [formatFixed16_5, if_pos hneg] at hc
    rcases List.mem_append.mp hc with hc | hc
    · rcases List.mem_append.mp hc with hc | hc
      · simp only [List.mem_singleton] at hc
        subst hc
        exact Or.inr (Or.inr rfl)
      · have := List.eq_of_mem_replicate hc
        subst this
        exact Or.inl (by decide)
    · exact hbody c hc
  · simp only [formatFixed16_5, if_neg hneg] at hc
    rcases List.mem_append.mp hc with hc | hc
    · rcases List.mem_append.mp hc with hc | hc
      · simp at hc
      · have := List.eq_of_mem_replicate hc
        subst this
        exact Or.inl (by decide)
    · exact hbody c hc

/-- A string of leading zeros, digits, a point and more digits starts with a
digit, so `pyFloat?` delegates to `parseUnsigned` on it. -/
theorem pyFloat?_zeros_digits (p : Nat) (ds fs : List Char)
    (hds : ∀ c ∈ ds, isDig c = true) (hne : ds ≠ []) :
    pyFloat? (List.replicate p '0' ++ ds ++ '.' :: fs)
      = parseUnsigned (List.replicate p '0' ++ ds ++ '.' :: fs) := by
  cases p with
  | zero =>
    cases ds with
    | nil => exact absurd rfl hne
    | cons d ds' =>
      have hd := hds d (by simp)
      have h1 := (isDig_ne_special d hd).1
      have h2 := (isDig_ne_special d hd).2.1
      simp only [List.replicate, List.nil_append, List.cons_append, pyFloat?,
        if_neg h1, if_neg h2]
  | succ p =>
    have h1 : ¬ (('0' : Char) = '+') := by decide
    have h2 : ¬ (('0' : Char) = '-') := by decide
    simp only [List.replicate_succ, List.cons_append, pyFloat?, if_neg h1, if_neg h2]

/-- Parsing the formatted field recovers the rounded value exactly. -/
theorem pyFloat?_formatFixed (q : ℚ) :
    pyFloat? (formatFixed16_5 q)
      = some ((roundHalfEven (q * 100000) : ℚ) / 100000) := by
  have hds : ∀ c ∈ natDigits ((roundHalfEven (q * 100000)).natAbs / 100000),
      isDig c = true := natDigits_digits _
  have hdsne : natDigits ((roundHalfEven (q * 100000)).natAbs / 100000) ≠ [] :=
    natDigits_ne_nil _
  have hfs : ∀ c ∈ padZeros 5 (natDigits ((roundHalfEven (q * 100000)).natAbs % 100000)),
      isDig c = true := by
    intro c hc
    unfold padZeros at hc
    rcases List.mem_append.mp hc with hc | hc
    · have := List.eq_of_mem_replicate hc
      subst this
      decide
    · exact natDigits_digits _ c hc
  have hfslen : (padZeros 5
      (natDigits ((roundHalfEven (q * 100000)).natAbs % 100000))).length = 5 := by
    unfold padZeros
    have : (natDigits ((roundHalfEven (q * 100000)).natAbs % 100000)).length ≤ 5 :=
      natDigits_length_le _ 5 (by
        have := Nat.mod_lt (roundHalfEven (q * 100000)).natAbs
          (show 0 < 100000 by omega)
        omega) (by omega)
    simp only [List.length_append, List.length_replicate]
    omega
  have hcore : ∀ p : Nat,
      parseUnsigned (List.replicate p '0'
          ++ natDigits ((roundHalfEven (q * 100000)).natAbs / 100000)
          ++ '.' :: padZeros 5 (natDigits ((roundHalfEven (q * 100000)).natAbs % 100000)))
        = some (((roundHalfEven (q * 100000)).natAbs : ℚ) / 100000) := by
    intro p
    have hpredig : ∀ c ∈ List.replicate p '0'
        ++ natDigits ((roundHalfEven (q * 100000)).natAbs / 100000), isDig c = true := by
      intro c hc
      rcases List.mem_append.mp hc with hc | hc
      · have := List.eq_of_mem_replicate hc
        subst this
        decide
      · exact hds c hc
    have hprene : List.replicate p '0'
        ++ natDigits ((roundHalfEven (q * 100000)).natAbs / 100000) ≠ [] := by
      intro hcontra
      exact hdsne (List.append_eq_nil.mp hcontra).2
    have hshape := parseUnsigned_shape
      (List.replicate p '0' ++ natDigits ((roundHalfEven (q * 100000)).natAbs / 100000))
      (padZeros 5 (natDigits ((roundHalfEven (q * 100000)).natAbs % 100000)))
      hpredig hprene hfs
    rw [List.append_assoc] at hshape
    rw [← List.append_assoc] at hshape
    rw [hshape, digitsToNat_append, digitsToNat_replicate_zero, natDigits_val,
      digitsToNat_padZeros, natDigits_val, hfslen]
    have hmagsplit : (roundHalfEven (q * 100000)).natAbs
        = (roundHalfEven (q * 100000)).natAbs / 100000 * 100000
          + (roundHalfEven (q * 100000)).natAbs % 100000 := by
      omega
    congr 1
    conv_rhs => rw [hmagsplit]
    push_cast
    have h1e5 : ((10 : ℚ) ^ (5 : Nat)) = 100000 := by norm_num
    rw [h1e5]
    field_simp
    try ring
  by_cases hneg : roundHalfEven (q * 100000) < 0
  · have hcast : ((roundHalfEven (q * 100000) : ℤ) : ℚ)
        = -(((roundHalfEven (q * 100000)).natAbs : ℚ)) := by
      push_cast [Int.cast_natAbs]
      rw [abs_of_neg (show ((roundHalfEven (q * 100000) : ℤ) : ℚ) < 0 by
        exact_mod_cast hneg)]
      ring
    simp only [formatFixed16_5, if_pos hneg]
    rw [List.append_assoc, List.singleton_append, ← List.append_assoc]
    have hm1 : ¬ (('-' : Char) = '+') := by decide
    simp only [pyFloat?, if_neg hm1, eq_self_iff_true, if_true]
    rw [hcore, Option.map_some']
    rw [hcast]
    congr 1
    ring
  · have hcast : ((roundHalfEven (q * 100000) : ℤ) : ℚ)
        = ((roundHalfEven (q * 100000)).natAbs : ℚ) := by
      push_cast [Int.cast_natAbs]
      rw [abs_of_nonneg (show (0 : ℚ) ≤ ((roundHalfEven (q * 100000) : ℤ) : ℚ) by
        exact_mod_cast not_lt.mp hneg)]
    simp only [formatFixed16_5, if_neg hneg]
    rw [List.nil_append, ← List.append_assoc]
    rw [pyFloat?_zeros_digits _ _ _ hds hdsne, hcore, hcast]

/-! ### Claim C6 — rounding bound and field structure -/

theorem roundHalfEven_abs_le (q : ℚ) : |(roundHalfEven q : ℚ) - q| ≤ 1 / 2 := by
  have h1 : (⌊q⌋ : ℚ) ≤ q := Int.floor_le q
  have h2 : q < ⌊q⌋ + 1 := Int.lt_floor_add_one q
  unfold roundHalfEven
  split
  · rename_i h
    rw [abs_le]
    constructor <;> push_cast <;> linarith
  · split
    · rename_i h h'
      rw [abs_le]
      constructor <;> push_cast <;> linarith
    · rename_i h h'
      have htie : q - (⌊q⌋ : ℚ) = 1 / 2 := by linarith [not_lt.mp h, not_lt.mp h']
      split <;> (rw [abs_le]; constructor <;> push_cast <;> linarith)

theorem formatFixed_roundTrip_bound (v : ℚ) :
    |((roundHalfEven (v * 100000) : ℚ) / 100000) - v| ≤ 1 / 200000 := by
  have h := roundHalfEven_abs_le (v * 100000)
  have heq : ((roundHalfEven (v * 100000) : ℚ) / 100000) - v
      = ((roundHalfEven (v * 100000) : ℚ) - v * 100000) / 100000 := by ring
  rw [heq, abs_div, abs_of_pos (show (0 : ℚ) < 100000 by norm_num),
    show (1 : ℚ) / 200000 = (1 / 2) / 100000 by norm_num]
  exact (div_le_div_iff_of_pos_right (show (0 : ℚ) < 100000 by norm_num)).mpr h

theorem padZeros5_length (n : Nat) (h : n < 100000) :
    (padZeros 5 (natDigits n)).length = 5 := by
  unfold padZeros
  have := natDigits_length_le n 5 (by norm_num; omega) (by omega)
  simp only [List.length_append, List.length_replicate]
  omega

theorem padZeros_digits (k n : Nat) :
    ∀ c ∈ padZeros k (natDigits n), isDig c = true := by
  intro c hc
  unfold padZeros at hc
  rcases List.mem_append.mp hc with hc | hc
  · have := List.eq_of_mem_replicate hc
    subst this
    decide
  · exact natDigits_digits _ c hc

theorem formatFixed16_5_length (q : ℚ) : 16 ≤ (formatFixed16_5 q).length := by
  by_cases hneg : roundHalfEven (q * 100000) < 0
  · simp only [formatFixed16_5, if_pos hneg, List.length_append,
      List.length_replicate, List.length_cons, List.length_singleton]
    omega
  · simp only [formatFixed16_5, if_neg hneg, List.length_append,
      List.length_replicate, List.length_cons, List.length_nil]
    omega

theorem formatFixed16_5_decimal (q : ℚ) :
    ∃ pre post, formatFixed16_5 q = pre ++ '.' :: post ∧ post.length = 5 ∧
      (∀ c ∈ post, isDig c = true) ∧ '.' ∉ pre := by
  refine ⟨(if roundHalfEven (q * 100000) < 0 then ['-'] else [])
      ++ List.replicate (16 - ((if roundHalfEven (q * 100000) < 0 then ['-'] else []).length
        + (natDigits ((roundHalfEven (q * 100000)).natAbs / 100000)
          ++ '.' :: padZeros 5 (natDigits ((roundHalfEven (q * 100000)).natAbs % 100000))).length)) '0'
      ++ natDigits ((roundHalfEven (q * 100000)).natAbs / 100000),
    padZeros 5 (natDigits ((roundHalfEven (q * 100000)).natAbs % 100000)),
    ?_, padZeros5_length _ (Nat.mod_lt _ (by omega)), padZeros_digits 5 _, ?_⟩
  · simp only [formatFixed16_5]
    simp [List.append_assoc]
  · intro hdot
    rcases List.mem_append.mp hdot with hdot | hdot
    · rcases List.mem_append.mp hdot with hdot | hdot
      · split at hdot <;> simp_all
      · have := List.eq_of_mem_replicate hdot
        simp at this
    · have := natDigits_digits _ _ hdot
      simp [isDig] at this

theorem formatFixed16_5_head_neg (q : ℚ)
    (hneg : roundHalfEven (q * 100000) < 0) :
    (formatFixed16_5 q).head? = some '-' := by
  simp only [formatFixed16_5, if_pos hneg]
  rw [List.append_assoc, List.singleton_append]
  rfl

/-! ### Claim C6 — splitting the joined reply -/

theorem splitOnCommaSpace_append_free (f : List Char) (hf : ∀ c ∈ f, c ≠ ',') :
    ∀ (l t : List Char) (ts : List (List Char)),
      splitOnCommaSpace l = t :: ts →
      splitOnCommaSpace (f ++ l) = (f ++ t) :: ts := by
  induction f with
  | nil => intro l t ts h; simpa using h
  | cons c f ih =>
    intro l t ts h
    have hc : c ≠ ',' := hf c (by simp)
    cases hfl : f ++ l with
    | nil =>
      have hf0 : f = [] := (List.append_eq_nil.mp hfl).1
      have hl0 : l = [] := (List.append_eq_nil.mp hfl).2
      subst hf0
      subst hl0
      simp only [splitOnCommaSpace] at h
      injection h with h1 h2
      subst h1
      subst h2
      simp [splitOnCommaSpace]
    | cons c2 rest =>
      have hstep : (c :: f) ++ l = c :: c2 :: rest := by
        rw [List.cons_append, hfl]
      rw [hstep]
      have hcond : ¬ (c = ',' ∧ c2 = ' ') := fun hcc => hc hcc.1
      simp only [splitOnCommaSpace, if_neg hcond]
      have hrec := ih (fun c' hc' => hf c' (by simp [hc'])) l t ts h
      rw [hfl] at hrec
      rw [hrec]
      simp [consHead]

theorem splitOnCommaSpace_joinSep (ts : List (List Char)) (hne : ts ≠ [])
    (hfree : ∀ t ∈ ts, ∀ c ∈ t, c ≠ ',') :
    splitOnCommaSpace (joinSep [',', ' '] ts) = ts := by
  induction ts with
  | nil => exact absurd rfl hne
  | cons t rest ih =>
    cases rest with
    | nil =>
      have := splitOnCommaSpace_append_free t (hfree t (by simp)) [] [] []
        (by simp [splitOnCommaSpace])
      simpa [joinSep] using this
    | cons t2 rest2 =>
      have hjoin : joinSep [',', ' '] (t :: t2 :: rest2)
          = t ++ (',' :: ' ' :: joinSep [',', ' '] (t2 :: rest2)) := by
        simp [joinSep]
      rw [hjoin]
      have hX : splitOnCommaSpace (',' :: ' ' :: joinSep [',', ' '] (t2 :: rest2))
          = [] :: (t2 :: rest2) := by
        have hcond : (',' : Char) = ',' ∧ (' ' : Char) = ' ' := ⟨rfl, rfl⟩
        simp only [splitOnCommaSpace, if_pos hcond]
        rw [ih (by simp) (fun u hu => hfree u (List.mem_cons_of_mem _ hu))]
        simp
      have := splitOnCommaSpace_append_free t (hfree t (by simp)) _ [] (t2 :: rest2) hX
      simpa using this

theorem forall₂_map_left {α β : Type} (f : α → β) (P : β → α → Prop) :
    ∀ l : List α, (∀ a ∈ l, P (f a) a) → List.Forall₂ P (l.map f) l := by
  intro l
  induction l with
  | nil => intro _; simp
  | cons a l ih =>
    intro h
    exact List.Forall₂.cons (h a (by simp)) (ih fun a' ha' => h a' (by simp [ha']))

/-- Splitting the encoded reply on `", "` recovers exactly one formatted
field per stored setpoint entry. -/
theorem encodeSetpoints_split (sps : List (String × ℚ)) (hne : sps ≠ []) :
    splitOnCommaSpace (encodeSetpoints sps)
      = sps.map (fun p => formatFixed16_5 p.2) := by
  unfold encodeSetpoints
  apply splitOnCommaSpace_joinSep
  · simpa using hne
  · intro t ht c hc hcomma
    subst hcomma
    rcases List.mem_map.mp ht with ⟨p, _, rfl⟩
    rcases formatFixed16_5_chars p.2 ',' hc with h | h | h <;> simp_all [isDig]

/-- Claim C6 (status: confirmed). The reply message is exactly the
schema-order stored setpoint values, each rendered by the fixed-width format
(width at least 16, sign inside the field, exactly 5 digits after the single
decimal point), joined with `", "`; splitting on `", "` recovers one field
per setpoint, and parsing each field as a float reproduces the setpoint
value to 5-decimal precision (within half of `10^-5`). -/
theorem claimC6_encode_fixed_width (sps : List (String × ℚ)) (hne : sps ≠ []) :
    splitOnCommaSpace (encodeSetpoints sps)
        = sps.map (fun p => formatFixed16_5 p.2) ∧
    (splitOnCommaSpace (encodeSetpoints sps)).length = sps.length ∧
    List.Forall₂ (fun (fld : List Char) (p : String × ℚ) =>
        16 ≤ fld.length ∧
        (∃ pre post, fld = pre ++ '.' :: post ∧ post.length = 5 ∧
          (∀ c ∈ post, isDig c = true) ∧ '.' ∉ pre) ∧
        (roundHalfEven (p.2 * 100000) < 0 → fld.head? = some '-') ∧
        ∃ w : ℚ, pyFloat? fld = some w ∧ |w - p.2| ≤ 1 / 200000)
      (splitOnCommaSpace (encodeSetpoints sps)) sps := by
  have hsplit := encodeSetpoints_split sps hne
  refine ⟨hsplit, by rw [hsplit]; simp, ?_⟩
  rw [hsplit]
  apply forall₂_map_left
  intro p _
  exact ⟨formatFixed16_5_length p.2, formatFixed16_5_decimal p.2,
    fun hneg => formatFixed16_5_head_neg p.2 hneg,
    ⟨_, pyFloat?_formatFixed p.2, formatFixed_roundTrip_bound p.2⟩⟩

/-- Witness for claim C6 at the Scenario C setpoints: the encoded reply for
`{ZMQ_YawOffset: -7.25, ZMQ_PitOffset(1): 0}` splits into the two expected
sixteen-character fields. -/
theorem claimC6_witness :
    splitOnCommaSpace (encodeSetpoints
        [("ZMQ_YawOffset", (-7.25 : ℚ)), ("ZMQ_PitOffset(1)", 0)])
      = [("ZMQ_YawOffset", (-7.25 : ℚ)), ("ZMQ_PitOffset(1)", (0 : ℚ))].map
          (fun p => formatFixed16_5 p.2) ∧
    List.Forall₂ (fun (fld : List Char) (p : String × ℚ) =>
        16 ≤ fld.length ∧
        (∃ pre post, fld = pre ++ '.' :: post ∧ post.length = 5 ∧
          (∀ c ∈ post, isDig c = true) ∧ '.' ∉ pre) ∧
        (roundHalfEven (p.2 * 100000) < 0 → fld.head? = some '-') ∧
        ∃ w : ℚ, pyFloat? fld = some w ∧ |w - p.2| ≤ 1 / 200000)
      (splitOnCommaSpace (encodeSetpoints
        [("ZMQ_YawOffset", (-7.25 : ℚ)), ("ZMQ_PitOffset(1)", 0)]))
      [("ZMQ_YawOffset", (-7.25 : ℚ)), ("ZMQ_PitOffset(1)", (0 : ℚ))] := by
  have h := claimC6_encode_fixed_width
    [("ZMQ_YawOffset", (-7.25 : ℚ)), ("ZMQ_PitOffset(1)", 0)] (by simp)
  exact ⟨h.1, h.2.2⟩

/-! ### Claim C7 — omitted setpoint channels default to zero -/

theorem setSetpointsLoop_spec (id : Int) (res : List (String × ℚ)) :
    ∀ (schema : List String) (sps : List (Int × List (String × ℚ)))
        (inner : List (String × ℚ)), dictGet sps id = some inner →
      ∃ sps' inner', setSetpointsLoop sps id res schema = .ok sps' ∧
        dictGet sps' id = some inner' ∧
        (∀ s ∈ schema, dictGet inner' s = some (dictGetD res s 0)) ∧
        (∀ k, k ∉ schema → dictGet inner' k = dictGet inner k) := by
  intro schema
  induction schema with
  | nil =>
    intro sps inner h
    exact ⟨sps, inner, rfl, h, by simp, fun k _ => rfl⟩
  | cons s rest ih =>
    intro sps inner h
    simp only [setSetpointsLoop, h]
    have h1 : dictGet (dictUpdate sps id (dictUpdate inner s (dictGetD res s 0))) id
        = some (dictUpdate inner s (dictGetD res s 0)) := dictGet_update_self _ _ _
    obtain ⟨sps', inner', hloop, hget, hall, huntouched⟩ := ih _ _ h1
    refine ⟨sps', inner', hloop, hget, ?_, ?_⟩
    · intro u hu
      rcases List.mem_cons.mp hu with rfl | hu'
      · by_cases hmem : u ∈ rest
        · exact hall u hmem
        · rw [huntouched u hmem, dictGet_update_self]
      · exact hall u hu'
    · intro k hk
      have hks : k ≠ s := fun hc => hk (hc ▸ List.mem_cons_self s rest)
      have hkrest : k ∉ rest := fun hc => hk (List.mem_cons_of_mem _ hc)
      rw [huntouched k hkrest, dictGet_update_ne _ _ _ _ hks]

/-- The server of the spec's Scenario C: the strategy returns only a yaw
offset for turbine 1, leaving the pitch-offset channel to the default. -/
def scenarioCServer : ServerState :=
  initialServer demoInterface
    (some (fun _ _ _ => [("ZMQ_YawOffset", (-7.25 : ℚ))])) []

/-- Claim C7 (status: confirmed). Setpoint channels the strategy's returned
mapping omits are stored (and hence sent) as 0 — `setpoints.get(s, 0)` — and
this is not an error: the setpoint-writing loop succeeds. Concretely, for
the Scenario C strategy result `{ZMQ_YawOffset: -7.25}` against the setpoint
schema `[ZMQ_YawOffset, ZMQ_PitOffset(1)]`, the served reply's first field
decodes to -7.25 and its second to 0. -/
theorem claimC7_omitted_setpoints_default_zero :
    (∀ (schema : List String) (sps : List (Int × List (String × ℚ)))
        (inner res : List (String × ℚ)) (id : Int), dictGet sps id = some inner →
      ∃ sps' inner', setSetpointsLoop sps id res schema = .ok sps' ∧
        dictGet sps' id = some inner' ∧
        (∀ s ∈ schema, dictGet res s = none → dictGet inner' s = some 0) ∧
        (∀ s ∈ schema, dictGet inner' s = some (dictGetD res s 0))) ∧
    (stepState (serverStep scenarioCServer stayEvent)).sent
        = ["-000000007.25000, 0000000000.00000".toList] ∧
    (splitOnCommaSpace ("-000000007.25000, 0000000000.00000".toList)).map pyFloat?
        = [some (-7.25 : ℚ), some 0] := by
  refine ⟨?_, by decide, by decide⟩
  intro schema sps inner res id h
  obtain ⟨sps', inner', hloop, hget, hall, _⟩ := setSetpointsLoop_spec id res schema sps inner h
  refine ⟨sps', inner', hloop, hget, ?_, hall⟩
  intro s hs hnone
  have := hall s hs
  rwa [show dictGetD res s 0 = 0 by simp [dictGetD, hnone]] at this

/-- Witness for claim C7: writing the Scenario C strategy result into
turbine 1's freshly initialised setpoint table succeeds and stores 0 for
the omitted pitch-offset channel. -/
theorem claimC7_witness :
    ∃ (sps' : List (Int × List (String × ℚ))) (inner' : List (String × ℚ)),
      setSetpointsLoop [((1 : Int), zeroDict demoInterface.setpoints)] 1
          [("ZMQ_YawOffset", (-7.25 : ℚ))] demoInterface.setpoints = .ok sps' ∧
      dictGet sps' 1 = some inner' ∧
      dictGet inner' "ZMQ_PitOffset(1)" = some 0 := by
  obtain ⟨sps', inner', hloop, hget, hzero, _⟩ :=
    claimC7_omitted_setpoints_default_zero.1 demoInterface.setpoints
      [((1 : Int), zeroDict demoInterface.setpoints)] (zeroDict demoInterface.setpoints)
      [("ZMQ_YawOffset", (-7.25 : ℚ))] 1 (by decide)
  exact ⟨sps', inner', hloop, hget, hzero "ZMQ_PitOffset(1)" (by decide) (by decide)⟩

/-! ### Claim C9 — sessions hold exactly the setpoint-schema keys -/

theorem mem_dictUpdate {α β : Type} [DecidableEq α]
    (d : List (α × β)) (k : α) (v : β) :
    ∀ p ∈ dictUpdate d k v, p ∈ d ∨ p = (k, v) := by
  induction d with
  | nil =>
    intro p hp
    simp only [dictUpdate, List.mem_singleton] at hp
    exact Or.inr hp
  | cons q rest ih =>
    intro p hp
    by_cases hq : q.1 = k
    · simp only [dictUpdate, if_pos hq] at hp
      rcases List.mem_cons.mp hp with rfl | hp'
      · exact Or.inr rfl
      · exact Or.inl (List.mem_cons_of_mem _ hp')
    · simp only [dictUpdate, if_neg hq] at hp
      rcases List.mem_cons.mp hp with rfl | hp'
      · exact Or.inl (List.mem_cons_self _ _)
      · rcases ih p hp' with h | h
        · exact Or.inl (List.mem_cons_of_mem _ h)
        · exact Or.inr h

theorem dictHasKey_of_mem_keys {α β : Type} [DecidableEq α]
    (d : List (α × β)) (k : α) (h : k ∈ d.map Prod.fst) : dictHasKey d k = true := by
  rcases List.mem_map.mp h with ⟨p, hp, hk⟩
  unfold dictHasKey
  simp only [List.any_eq_true, decide_eq_true_eq]
  exact ⟨p, hp, hk⟩

theorem dictGet_eq_none_of_not_mem_keys {α β : Type} [DecidableEq α]
    (d : List (α × β)) (k : α) (h : k ∉ d.map Prod.fst) : dictGet d k = none := by
  induction d with
  | nil => rfl
  | cons q rest ih =>
    simp only [List.map_cons, List.mem_cons] at h
    push_neg at h
    have hq : ¬ (q.1 = k) := fun hc => h.1 hc.symm
    simp only [dictGet, List.find?]
    rw [show (decide (q.1 = k)) = false by simp [hq]]
    exact ih h.2

theorem mem_of_dictGet {α β : Type} [DecidableEq α]
    (d : List (α × β)) (k : α) (v : β) (h : dictGet d k = some v) : (k, v) ∈ d := by
  induction d with
  | nil => simp [dictGet, List.find?] at h
  | cons q rest ih =>
    by_cases hq : q.1 = k
    · simp only [dictGet, List.find?] at h
      rw [show (decide (q.1 = k)) = true by simp [hq]] at h
      simp only [Option.map_some'] at h
      injection h with h
      have : q = (k, v) := by
        cases q
        simp only [Prod.mk.injEq]
        exact ⟨hq, h⟩
      rw [← this]
      exact List.mem_cons_self _ _
    · simp only [dictGet, List.find?] at h
      rw [show (decide (q.1 = k)) = false by simp [hq]] at h
      exact List.mem_cons_of_mem _ (ih (by simpa [dictGet] using h))

theorem zeroDict_keys (schema : List String) :
    (zeroDict schema).map Prod.fst = schema := by
  induction schema with
  | nil => rfl
  | cons s rest ih =>
    simp only [zeroDict, List.map_cons] at ih ⊢
    rw [ih]

/-- The per-session key invariant: every setpoint entry of the registry
carries exactly the setpoint-schema keys, in schema order. -/
def SetpointKeysInv (st : ServerState) : Prop :=
  ∀ p ∈ st.conns.setpoints, p.2.map Prod.fst = st.conns.wfc_interface.setpoints

theorem add_unique_keys (conn : List (Int × Bool)) (self : wfc_zmq_connections)
    (id : Int)
    (h : ∀ p ∈ self.setpoints, p.2.map Prod.fst = self.wfc_interface.setpoints) :
    ∀ p ∈ (add_unique conn self id).2.setpoints,
      p.2.map Prod.fst = self.wfc_interface.setpoints := by
  unfold add_unique
  split
  · exact h
  · intro p hp
    rcases mem_dictUpdate _ _ _ p hp with hp' | hp'
    · exact h p hp'
    · subst hp'
      exact zeroDict_keys _

theorem setSetpointsLoop_keys (id : Int) (res : List (String × ℚ))
    (schema : List String) :
    ∀ (sub : List String) (sps sps' : List (Int × List (String × ℚ))),
      (∀ s ∈ sub, s ∈ schema) →
      (∀ p ∈ sps, p.2.map Prod.fst = schema) →
      setSetpointsLoop sps id res sub = .ok sps' →
      ∀ p ∈ sps', p.2.map Prod.fst = schema := by
  intro sub
  induction sub with
  | nil =>
    intro sps sps' _ hkeys hloop
    simp only [setSetpointsLoop] at hloop
    injection hloop with hloop
    subst hloop
    exact hkeys
  | cons s rest ih =>
    intro sps sps' hsub hkeys hloop
    simp only [setSetpointsLoop] at hloop
    cases hget : dictGet sps id with
    | none => rw [hget] at hloop; exact absurd hloop (by simp)
    | some inner =>
      rw [hget] at hloop
      have hinner : inner.map Prod.fst = schema :=
        hkeys (id, inner) (mem_of_dictGet _ _ _ hget)
      have hs : dictHasKey inner s = true :=
        dictHasKey_of_mem_keys _ _ (by rw [hinner]; exact hsub s (by simp))
      have hnew : ∀ p ∈ dictUpdate sps id
          (dictUpdate inner s (dictGetD res s 0)), p.2.map Prod.fst = schema := by
        intro p hp
        rcases mem_dictUpdate _ _ _ p hp with hp' | hp'
        · exact hkeys p hp'
        · subst hp'
          simp only
          rw [dictUpdate_map_fst _ _ _ hs]
          exact hinner
      exact ih _ _ (fun u hu => hsub u (by simp [hu])) hnew hloop

theorem get_setpoints_keys (controller : Option Strategy)
    (self cs : wfc_zmq_connections) (id : Int) (meas : List (String × ℚ))
    (h : ∀ p ∈ self.setpoints, p.2.map Prod.fst = self.wfc_interface.setpoints)
    (hok : get_setpoints controller self id meas = .ok cs) :
    (∀ p ∈ cs.setpoints, p.2.map Prod.fst = cs.wfc_interface.setpoints) ∧
      cs.wfc_interface = self.wfc_interface := by
  unfold get_setpoints at hok
  split at hok
  · exact absurd hok (by simp)
  · split at hok
    · exact absurd hok (by simp)
    · split at hok
      · exact absurd hok (by simp)
      · split at hok
        · exact absurd hok (by simp)
        · rename_i sps hloop
          injection hok with hok
          subst hok
          refine ⟨?_, rfl⟩
          simp only
          exact setSetpointsLoop_keys id _ self.wfc_interface.setpoints
            self.wfc_interface.setpoints self.setpoints sps (fun s hs => hs) h hloop

theorem update_measurements_setpoints (conn : List (Int × Bool))
    (self : wfc_zmq_connections) (id : Int) (meas : List (String × ℚ)) :
    (update_measurements conn self id meas).2.1.setpoints = self.setpoints ∧
    (update_measurements conn self id meas).2.1.wfc_interface = self.wfc_interface := by
  unfold update_measurements
  split
  · exact ⟨rfl, rfl⟩
  · split <;> exact ⟨rfl, rfl⟩

theorem add_unique_wfc_interface (conn : List (Int × Bool))
    (self : wfc_zmq_connections) (id : Int) :
    (add_unique conn self id).2.wfc_interface = self.wfc_interface := by
  unfold add_unique
  split <;> rfl

theorem processRequest_preserves_keys (st : ServerState) (id : Int)
    (meas : List (String × ℚ)) (h : SetpointKeysInv st) :
    SetpointKeysInv (stepState (processRequest st id meas)) := by
  simp only [processRequest]
  have hau := add_unique_keys st.connected st.conns id h
  have haui := add_unique_wfc_interface st.connected st.conns id
  have hum := update_measurements_setpoints
    (add_unique st.connected st.conns id).1
    (add_unique st.connected st.conns id).2 id meas
  have hst2 : ∀ p ∈ (update_measurements (add_unique st.connected st.conns id).1
      (add_unique st.connected st.conns id).2 id meas).2.1.setpoints,
      p.2.map Prod.fst = (update_measurements (add_unique st.connected st.conns id).1
        (add_unique st.connected st.conns id).2 id meas).2.1.wfc_interface.setpoints := by
    rw [hum.1, hum.2, haui]
    exact hau
  split
  · exact hst2
  · unfold trySetpoints
    split
    · split <;> exact hst2
    · rename_i cs hok
      have hcs := get_setpoints_keys _ _ _ _ _ hst2 hok
      have hfinal : ∀ p ∈ cs.setpoints,
          p.2.map Prod.fst = cs.wfc_interface.setpoints := hcs.1
      split
      · exact hfinal
      · rename_i st4 hsend
        unfold send_setpoints at hsend
        split at hsend
        · exact absurd hsend (by simp)
        · injection hsend with hsend
          subst hsend
          unfold checkLoop
          split
          · exact hfinal
          · exact hfinal

theorem serverStep_preserves_keys (st : ServerState) (ev : RecvEvent)
    (h : SetpointKeysInv st) : SetpointKeysInv (stepState (serverStep st ev)) := by
  unfold serverStep
  split
  · exact h
  · split
    · exact h
    · split
      · exact h
      · exact processRequest_preserves_keys _ _ _ h

/-- Claim C9 (status: confirmed). From the moment a session is registered,
its setpoint mapping holds exactly the setpoint-schema keys in schema order,
and every operation — registration, measurement update, the setpoint-writing
loop, a whole loop step or a whole run — preserves this; a key absent from
the schema is never stored in a session, and the encoded reply carries
exactly one field per schema channel, so extra strategy keys are never
encoded. -/
theorem claimC9_schema_keys_invariant :
    (∀ (conn : List (Int × Bool)) (self : wfc_zmq_connections) (id : Int),
      (∀ p ∈ self.setpoints, p.2.map Prod.fst = self.wfc_interface.setpoints) →
      ∀ p ∈ (add_unique conn self id).2.setpoints,
        p.2.map Prod.fst = self.wfc_interface.setpoints) ∧
    (∀ (st : ServerState) (ev : RecvEvent), SetpointKeysInv st →
      SetpointKeysInv (stepState (serverStep st ev))) ∧
    (∀ (st : ServerState) (evs : List RecvEvent), SetpointKeysInv st →
      SetpointKeysInv ((runserver st evs).state)) ∧
    (∀ (self : wfc_zmq_connections) (id : Int) (inner : List (String × ℚ))
        (k : String),
      (∀ p ∈ self.setpoints, p.2.map Prod.fst = self.wfc_interface.setpoints) →
      dictGet self.setpoints id = some inner →
      inner.map Prod.fst = self.wfc_interface.setpoints ∧
        (k ∉ self.wfc_interface.setpoints → dictGet inner k = none)) ∧
    (∀ (inner : List (String × ℚ)) (schema : List String),
      inner.map Prod.fst = schema → schema ≠ [] →
      (splitOnCommaSpace (encodeSetpoints inner)).length = schema.length) := by
  refine ⟨add_unique_keys, serverStep_preserves_keys, ?_, ?_, ?_⟩
  · intro st evs h
    exact runserver_preserves SetpointKeysInv serverStep_preserves_keys evs st h
  · intro self id inner k h hget
    have hinner : inner.map Prod.fst = self.wfc_interface.setpoints :=
      h (id, inner) (mem_of_dictGet _ _ _ hget)
    refine ⟨hinner, fun hk => ?_⟩
    exact dictGet_eq_none_of_not_mem_keys inner k (by rwa [hinner])
  · intro inner schema hkeys hne
    have hinne : inner ≠ [] := by
      intro hcontra
      subst hcontra
      have : schema = [] := by simpa using hkeys.symm
      exact hne this
    rw [encodeSetpoints_split inner hinne]
    simp only [List.length_map]
    rw [← hkeys]
    simp

/-- Witness for claim C9: running the Scenario B request from the fresh
server keeps the invariant, registering turbine 1 creates the schema-shaped
entry, strategy keys outside the schema are absent, and the served reply
has exactly one field per setpoint channel. -/
theorem claimC9_witness :
    SetpointKeysInv ((runserver scenarioBServer [stayEvent]).state) ∧
    (dictGet (add_unique [] (freshConnections demoInterface) 1).2.setpoints 1
        = some (zeroDict demoInterface.setpoints) ∧
      dictGet (zeroDict demoInterface.setpoints) "NotAChannel" = none) ∧
    (splitOnCommaSpace (encodeSetpoints (zeroDict demoInterface.setpoints))).length
        = demoInterface.setpoints.length := by
  refine ⟨?_, ⟨by decide, ?_⟩, ?_⟩
  · apply claimC9_schema_keys_invariant.2.2.1 scenarioBServer [stayEvent]
    intro p hp
    simp [scenarioBServer, initialServer, freshConnections] at hp
  · exact (claimC9_schema_keys_invariant.2.2.2.1
      (add_unique [] (freshConnections demoInterface) 1).2
      1 (zeroDict demoInterface.setpoints) "NotAChannel"
      (by decide) (by decide)).2 (by decide)
  · exact claimC9_schema_keys_invariant.2.2.2.2 (zeroDict demoInterface.setpoints)
      demoInterface.setpoints (zeroDict_keys _) (by decide)

end ConcreteEvaluation

end WfcZmq
